import Mathlib

/-!
Shallow embedding of the data-plane core of the aiokafka client, covering:

* `RangePartitionAssignor.assign` — the range partition-assignment strategy
  (src/aiokafka/coordinator/assignors/range.py, lines 36-74);
* the legacy record-batch Builder/Reader — the implementation module is not
  part of the sources at hand (only its tests are), so it is modelled from
  the specification's description of the legacy wire format and of the
  Builder/Reader contracts, cross-checked against the constants pinned by
  src/tests/record/test_legacy.py.

Python dictionaries are embedded as association lists in insertion order;
Python sets of partitions as lists (with `Nodup` hypotheses where the claim
needs set semantics); bytes as `List Nat` of values < 256; Python `int` as
`Int` with explicit two's-complement reduction where the wire format fixes a
width.
-/

/-- Lexicographic comparison of character lists by Unicode code point,
embedding Python string comparison. -/
def charsLe : List Char → List Char → Bool
  | [], _ => true
  | _ :: _, [] => false
  | a :: as, b :: bs =>
    if a.toNat < b.toNat then true
    else if b.toNat < a.toNat then false
    else charsLe as bs

/-- Python `str` comparison (`s1 <= s2`): lexicographic by code point. -/
def strLe (a b : String) : Bool := charsLe a.data b.data

/-- Subscription metadata of one group member
(ConsumerProtocolMemberMetadata: version, topic list, opaque user data). -/
structure ConsumerProtocolMemberMetadata where
  version : Nat
  subscription : List String
  user_data : List Nat
deriving DecidableEq

/-- Assignment result for one group member
(ConsumerProtocolMemberAssignment: version, (topic, partitions) pairs,
opaque user data). -/
structure ConsumerProtocolMemberAssignment where
  version : Nat
  assignment : List (String × List Nat)
  user_data : List Nat
deriving DecidableEq

/-- Cluster metadata as used by the assignor: `partitions_for_topic` returns
the set of known partitions for a topic, or `none` when the topic has no
partition metadata.  The set is embedded as a list of partition ids. -/
abbrev ClusterMetadata := String → Option (List Nat)

/-- The `members` dict passed to `assign`: member id → subscription metadata,
in insertion order. -/
abbrev Members := List (String × ConsumerProtocolMemberMetadata)

namespace RangePartitionAssignor

/-- `RangePartitionAssignor.version` (range.py line 34). -/
def version : Nat := 0

/-- Lines 42-45: `consumers_per_topic[topic]` after the first loop — every
member is appended once per occurrence of `topic` in its subscription list,
in member-iteration order. -/
def consumersForTopic (members : Members) (topic : String) : List String :=
  members.flatMap fun p => (p.2.subscription.filter fun t => t == topic).map fun _ => p.1

/-- The key set of `consumers_per_topic`: every topic occurring in some
member's subscription.  (Deduplicated; the dict's iteration order is
irrelevant downstream because each member's items are sorted by topic at
line 72.) -/
def subscribedTopics (members : Members) : List String :=
  (members.flatMap fun p => p.2.subscription).dedup

/-- Line 55: `sorted(partitions)` — numeric ascending sort. -/
def sortedPartitions (partitions : List Nat) : List Nat :=
  partitions.insertionSort (· ≤ ·)

/-- Line 56: `consumers_for_topic.sort()` — lexicographic sort of member ids. -/
def sortedConsumers (consumers : List String) : List String :=
  consumers.insertionSort fun a b => strLe a b = true

/-- Lines 50-67, body of the per-topic loop: the sequence of dict writes
`assignment[member][topic] = partitions_list[start : start + length]`
performed for one topic, in loop order, as (member, partition-slice) pairs.
Returns `[]` when the topic has no partition metadata (lines 52-54: the
topic is skipped). -/
def topicWrites (cluster : ClusterMetadata) (members : Members) (topic : String) :
    List (String × List Nat) :=
  match cluster topic with
  | none => []
  | some partitions =>
    let partitions_list := sortedPartitions partitions
    let consumers := sortedConsumers (consumersForTopic members topic)
    let partitions_per_consumer := partitions_list.length / consumers.length
    let consumers_with_extra := partitions_list.length % consumers.length
    consumers.enum.map fun p =>
      let i := p.1
      let start := partitions_per_consumer * i + min i consumers_with_extra
      let length :=
        if i + 1 > consumers_with_extra then partitions_per_consumer
        else partitions_per_consumer + 1
      (p.2, (partitions_list.drop start).take length)

/-- Last-write-wins lookup over a sequence of dict writes: the value the dict
holds at key `mid` after all writes have been performed. -/
def dictLast (writes : List (String × List Nat)) (mid : String) : Option (List Nat) :=
  ((writes.filter fun w => w.1 == mid).getLast?).map fun w => w.2

/-- Line 72: `sorted(assignment[member_id].items())` — the (topic, partitions)
pairs the nested dict holds for `member_id`, sorted by topic.  (Python sorts
the pairs as tuples; since the dict's topic keys are distinct this equals
sorting by topic name alone.) -/
def memberAssignmentPairs (cluster : ClusterMetadata) (members : Members) (mid : String) :
    List (String × List Nat) :=
  ((subscribedTopics members).filterMap fun t =>
      (dictLast (topicWrites cluster members t) mid).map fun l => (t, l)).insertionSort
    fun a b => strLe a.1 b.1 = true

/-- Lines 36-74: `RangePartitionAssignor.assign` — for every member of the
input dict (in order), an assignment entry built from the per-topic range
computation, with `cls.version` and an empty `user_data` (line 72 passes
`b""`). -/
def assign (cluster : ClusterMetadata) (members : Members) :
    List (String × ConsumerProtocolMemberAssignment) :=
  members.map fun p =>
    (p.1, ⟨version, memberAssignmentPairs cluster members p.1, []⟩)

/-- The partition list `assign` gives member `mid` for `topic` (empty when no
entry exists). -/
def assignedTo (cluster : ClusterMetadata) (members : Members) (mid topic : String) :
    List Nat :=
  match (assign cluster members).lookup mid with
  | none => []
  | some a =>
    match a.assignment.lookup topic with
    | none => []
    | some l => l

/-- Line 62-63 as a function of P, M, i: the start offset of the range handed
to the consumer at sorted index `i` (`partitions_per_consumer * i +
min(i, consumers_with_extra)`). -/
def chunkStart (P M i : Nat) : Nat := P / M * i + min i (P % M)

/-- Lines 64-66 as a function of P, M, i: the range length
(`partitions_per_consumer`, plus one for the first `P mod M` consumers). -/
def chunkLen (P M i : Nat) : Nat := if i + 1 > P % M then P / M else P / M + 1

/-- The contiguous slice of the sorted partition list handed to sorted
consumer index `i` (line 67). -/
def chunk (pl : List Nat) (M i : Nat) : List Nat :=
  (pl.drop (chunkStart pl.length M i)).take (chunkLen pl.length M i)

end RangePartitionAssignor

/-!
### Legacy record-batch codec

Modelled from the spec: the implementation module
(`aiokafka/record/legacy_records.py`) is not among the sources at hand — only
its tests are — so the Builder and Reader below follow the specification's
description of the legacy wire format (section 6: per record
`[offset][size][crc32][magic][attributes][timestamp (v1 only)]
[key length + key][value length + value]`, big-endian, length `-1` for an
absent key/value), the Builder contract of section 4.2 and the Reader
contract of section 4.3.  The record-accumulation path is codec-independent
(records are buffered raw; section 4.2 applies the negotiated codec to the
concatenated payload at build time): `build` is the uncompressed-codec
build, and `buildWithCodec` models the compressed wrapping of section 4.2
with the compress function — an external general-purpose stream compressor
the spec does not fix — passed as a parameter.  All constants are
cross-checked against src/tests/record/test_legacy.py.
-/

namespace LegacyRecords

/-- Big-endian byte encoding of `n` in exactly `k` bytes (modulo 256^k). -/
def natBytesBE : Nat → Nat → List Nat
  | 0, _ => []
  | k + 1, n => natBytesBE k (n / 256) ++ [n % 256]

/-- Big-endian byte decoding. -/
def natFromBytesBE (l : List Nat) : Nat := l.foldl (fun acc b => acc * 256 + b) 0

/-- Signed 32-bit big-endian encoding (two's complement). -/
def int32BE (i : Int) : List Nat := natBytesBE 4 (i % 2 ^ 32).toNat

/-- Signed 64-bit big-endian encoding (two's complement). -/
def int64BE (i : Int) : List Nat := natBytesBE 8 (i % 2 ^ 64).toNat

/-- Unsigned 32-bit big-endian encoding (used for the CRC field). -/
def uint32BE (n : Nat) : List Nat := natBytesBE 4 n

/-- Signed 32-bit big-endian decoding. -/
def readInt32 (l : List Nat) : Int :=
  let n := natFromBytesBE l
  if n < 2 ^ 31 then (n : Int) else (n : Int) - 2 ^ 32

/-- Signed 64-bit big-endian decoding. -/
def readInt64 (l : List Nat) : Int :=
  let n := natFromBytesBE l
  if n < 2 ^ 63 then (n : Int) else (n : Int) - 2 ^ 64

/-- Unsigned 32-bit big-endian decoding. -/
def readUint32 (l : List Nat) : Nat := natFromBytesBE l

/-- Bitwise xor of the low `k` bits of two naturals (structural recursion so
that concrete checksums evaluate inside the kernel). -/
def xorBits : Nat → Nat → Nat → Nat
  | 0, _, _ => 0
  | k + 1, a, b =>
    (if (a % 2 + b % 2) % 2 = 1 then 1 else 0) + 2 * xorBits k (a / 2) (b / 2)

/-- 32-bit xor. -/
def xor32 (a b : Nat) : Nat := xorBits 32 a b

/-- One bit-step of the reflected CRC-32 (IEEE) computation,
polynomial 0xEDB88320. -/
def crcStep (c : Nat) : Nat :=
  if c % 2 = 1 then xor32 (c / 2) 0xEDB88320 else c / 2

/-- Fold one data byte into the running CRC-32 state. -/
def crcByte (c b : Nat) : Nat := crcStep^[8] (xor32 c b)

/-- Left fold of `crcByte` over the data bytes.  The accumulator is forced
to a numeral at every step (via the match on the intermediate state), so that
evaluating the fold over a long payload needs only constant stack depth. -/
def crcFold : List Nat → Nat → Nat
  | [], c => c
  | b :: rest, c =>
    match crcByte c b with
    | 0 => crcFold rest 0
    | m + 1 => crcFold rest (m + 1)

/-- CRC-32 (IEEE 802.3, as produced by zlib.crc32) of a byte sequence:
initial value 0xFFFFFFFF, final complement. -/
def crc32 (data : List Nat) : Nat :=
  xor32 (crcFold data 0xFFFFFFFF) 0xFFFFFFFF

/-- The raw bytes of an optional key/value (`none` encodes as no bytes). -/
def optBytes : Option (List Nat) → List Nat
  | none => []
  | some k => k

/-- The length field of an optional key/value: `-1` when absent. -/
def lenField : Option (List Nat) → Int
  | none => -1
  | some k => (k.length : Int)

/-- The message body covered by the record-level CRC: magic byte, attributes
byte (0: no compression, create-time timestamp type), the timestamp for v1,
then length-prefixed key and value. -/
def messageBody (magic : Nat) (timestamp : Int) (key value : Option (List Nat)) :
    List Nat :=
  [magic, 0] ++ (if magic = 0 then [] else int64BE timestamp) ++
    int32BE (lenField key) ++ optBytes key ++
    int32BE (lenField value) ++ optBytes value

/-- Modelled from the spec: per-append metadata returned by the Builder
(offset, computed checksum, encoded size, resolved timestamp). -/
structure LegacyRecordMetadata where
  offset : Int
  crc : Nat
  size : Nat
  timestamp : Int
deriving DecidableEq

/-- Modelled from the spec: the Builder's state — target format version
(magic), compression codec, maximum batch size, the encode-time clock
(external wall clock, a model parameter), and the accumulated buffer. -/
structure LegacyRecordBatchBuilder where
  magic : Nat
  compression_type : Nat
  batch_size : Nat
  now : Int
  buffer : List Nat
deriving DecidableEq

namespace LegacyRecordBatchBuilder

/-- Modelled from the spec: `size_in_bytes` — log overhead (offset 8 bytes +
size 4 bytes) plus the record overhead (crc 4, magic 1, attributes 1,
timestamp 8 for v1, two 4-byte length fields) plus key and value bytes. -/
def size_in_bytes (b : LegacyRecordBatchBuilder) (_offset : Int)
    (_timestamp : Option Int) (key value : Option (List Nat)) : Nat :=
  12 + (if b.magic = 0 then 14 else 22) + (optBytes key).length + (optBytes value).length

/-- Modelled from the spec: timestamp resolution — v0 carries no timestamp
(encoded as -1 in metadata); for v1 an absent timestamp resolves to the
encode-time clock. -/
def resolveTimestamp (b : LegacyRecordBatchBuilder) (timestamp : Option Int) : Int :=
  if b.magic = 0 then -1
  else
    match timestamp with
    | some t => t
    | none => b.now

/-- Modelled from the spec: `append` — the first record of an empty batch is
always accepted; a subsequent record is rejected (absent result, builder
state unchanged) when accepting it would exceed the maximum batch size;
an accepted record is encoded (record-level CRC over the message body) and
its bytes appended to the buffer. -/
def append (b : LegacyRecordBatchBuilder) (offset : Int) (timestamp : Option Int)
    (key value : Option (List Nat)) :
    Option LegacyRecordMetadata × LegacyRecordBatchBuilder :=
  let size := b.size_in_bytes offset timestamp key value
  if b.buffer ≠ [] ∧ b.buffer.length + size > b.batch_size then (none, b)
  else
    let ts := b.resolveTimestamp timestamp
    let body := messageBody b.magic ts key value
    let crc := crc32 body
    let entry := int64BE offset ++ int32BE ((4 + body.length : Nat) : Int) ++
      uint32BE crc ++ body
    (some ⟨offset, crc, size, ts⟩, { b with buffer := b.buffer ++ entry })

/-- Modelled from the spec: `build()` for the uncompressed codec — the
accumulated buffer is the batch.  The compressed-codec build is
`LegacyRecords.buildWithCodec` below, which wraps this buffer per
section 4.2. -/
def build (b : LegacyRecordBatchBuilder) : List Nat := b.buffer

end LegacyRecordBatchBuilder

/-- One record as parsed back by the Reader. -/
structure LegacyRecord where
  offset : Int
  timestamp : Option Int
  timestamp_type : Option Nat
  key : Option (List Nat)
  value : Option (List Nat)
  checksum : Nat
deriving DecidableEq

/-- Split off exactly `n` leading bytes, failing on a truncated buffer. -/
def takeN (n : Nat) (l : List Nat) : Option (List Nat × List Nat) :=
  if n ≤ l.length then some (l.take n, l.drop n) else none

/-- Read a length-prefixed optional byte string (length `-1` means absent). -/
def readSized (len : Int) (l : List Nat) : Option (Option (List Nat) × List Nat) :=
  if len = -1 then some (none, l)
  else if len < 0 then none
  else (takeN len.toNat l).map fun p => (some p.1, p.2)

/-- Modelled from the spec: parse one legacy record entry from the head of
the buffer, returning the record and the remaining bytes.  The stored
record-level checksum is exposed as read, not recomputed (section 4.3). -/
def parseRecord (magic : Nat) (buf : List Nat) : Option (LegacyRecord × List Nat) := do
  let (offBytes, r1) ← takeN 8 buf
  let (sizeBytes, r2) ← takeN 4 r1
  let msize := readInt32 sizeBytes
  if msize < 0 then none
  else
    let (msg, rest) ← takeN msize.toNat r2
    let (crcBytes, m1) ← takeN 4 msg
    let (_magicByte, m2) ← takeN 1 m1
    let (attrBytes, m3) ← takeN 1 m2
    let attr := attrBytes.headD 0
    if magic = 0 then
      let (key, m4) ← (takeN 4 m3).bind fun p => readSized (readInt32 p.1) p.2
      let (value, _m5) ← (takeN 4 m4).bind fun p => readSized (readInt32 p.1) p.2
      some (⟨readInt64 offBytes, none, none, key, value, readUint32 crcBytes⟩, rest)
    else
      let (tsBytes, m4) ← takeN 8 m3
      let (key, m5) ← (takeN 4 m4).bind fun p => readSized (readInt32 p.1) p.2
      let (value, _m6) ← (takeN 4 m5).bind fun p => readSized (readInt32 p.1) p.2
      some (⟨readInt64 offBytes, some (readInt64 tsBytes),
        some (if attr / 8 % 2 = 1 then 1 else 0), key, value, readUint32 crcBytes⟩, rest)

/-- Modelled from the spec: parse all records of a batch buffer
(fuel-indexed; the fuel is instantiated with the buffer length). -/
def parseRecords (magic : Nat) : Nat → List Nat → Option (List LegacyRecord)
  | _, [] => some []
  | 0, _ :: _ => none
  | fuel + 1, b :: bs =>
    match parseRecord magic (b :: bs) with
    | none => none
    | some (r, rest) => (parseRecords magic fuel rest).map fun rs => r :: rs

/-- Modelled from the spec: the Reader — `LegacyRecordBatch(buffer, magic)`
iterated to a list of records (uncompressed batches). -/
def records (buf : List Nat) (magic : Nat) : Option (List LegacyRecord) :=
  parseRecords magic buf.length buf

/-- Modelled from the spec (sections 4.2 and 6): at build time a compressing
codec wraps the batch payload (all records concatenated) as the value of a
single synthetic "compressed record", whose attributes byte carries the
codec id; the wrapper has no key. -/
def wrapCompressed (magic codec : Nat) (compressed : List Nat) : List Nat :=
  let body := [magic, codec] ++ (if magic = 0 then [] else int64BE 0) ++
    int32BE (-1) ++ int32BE ((compressed.length : Nat) : Int) ++ compressed
  int64BE 0 ++ int32BE ((4 + body.length : Nat) : Int) ++ uint32BE (crc32 body) ++ body

/-- One run of the stand-in compressor: counts up to 255 repeats of `b`,
emitting (run length, byte) pairs. -/
def rleAux : Nat → Nat → List Nat → List Nat
  | count, b, [] => [count, b]
  | count, b, c :: rest =>
    if c = b ∧ count < 255 then rleAux (count + 1) b rest
    else count :: b :: rleAux 1 c rest

/-- Modelled from the spec: a concrete stand-in for the negotiated
general-purpose stream compressor (gzip / snappy / lz4 are external to this
core and the spec fixes no algorithm): byte-wise run-length encoding. -/
def rleCompress : List Nat → List Nat
  | [] => []
  | b :: rest => rleAux 1 b rest

/-- Modelled from the spec: `build()` under a negotiated codec — codec 0
returns the accumulated buffer unchanged; a compressing codec wraps the
compressed payload as a single synthetic record (section 4.2).  The compress
function is external to the core and passed as a parameter. -/
def buildWithCodec (compress : List Nat → List Nat)
    (b : LegacyRecordBatchBuilder) : List Nat :=
  if b.compression_type = 0 then b.buffer
  else wrapCompressed b.magic b.compression_type (compress b.buffer)

end LegacyRecords

/-!
### Concrete fixtures used by the witnesses below

`exCluster`/`exMembers` is the worked example of the spec (two consumers C0,
C1; topics t0, t1 with partitions [0, 1, 2] each); the other fixtures are
small inputs for the remaining witnesses and counterexamples.
-/

/-- Two topics t0, t1 with partitions {0, 1, 2} each. -/
def exCluster : ClusterMetadata :=
  fun t => if t = "t0" ∨ t = "t1" then some [0, 1, 2] else none

/-- Members C0 and C1, both subscribed to t0 and t1. -/
def exMembers : Members :=
  [("C0", ⟨0, ["t0", "t1"], []⟩), ("C1", ⟨0, ["t0", "t1"], []⟩)]

/-- The same member set as `exMembers`, supplied in the opposite order. -/
def exMembersRev : Members :=
  [("C1", ⟨0, ["t0", "t1"], []⟩), ("C0", ⟨0, ["t0", "t1"], []⟩)]

/-- A single member whose subscription carries a non-empty user-data payload. -/
def cexMembers : Members := [("m0", ⟨0, ["t"], [1]⟩)]

/-- One topic "t" with a single partition. -/
def cexCluster : ClusterMetadata := fun t => if t = "t" then some [0] else none

/-- A member subscribed to a topic without partition metadata ("gone"),
next to a member on a live topic. -/
def skipMembers : Members :=
  [("m0", ⟨0, ["gone", "t"], []⟩), ("m1", ⟨0, ["t"], []⟩)]

/-- Metadata for "t" only; "gone" has no partition metadata. -/
def skipCluster : ClusterMetadata := fun t => if t = "t" then some [0, 1] else none

/-- A member with an empty subscription next to a subscribed member. -/
def lonerMembers : Members :=
  [("idle", ⟨0, [], [7]⟩), ("busy", ⟨0, ["t"], []⟩)]

/-- Two members sharing the single-partition topic "t": the second receives
an empty slice. -/
def twoOnOneMembers : Members :=
  [("a", ⟨0, ["t"], []⟩), ("b", ⟨0, ["t"], []⟩)]

/-! ### Order properties of the lexicographic comparison -/

theorem charsLe_total (a b : List Char) : charsLe a b = true ∨ charsLe b a = true := by
  induction a generalizing b with
  | nil => left; simp [charsLe]
  | cons x xs ih =>
    cases b with
    | nil => right; simp [charsLe]
    | cons y ys =>
      rcases Nat.lt_trichotomy x.toNat y.toNat with h | h | h
      · left; simp [charsLe, h]
      · have h1 : ¬x.toNat < y.toNat := by omega
        have h2 : ¬y.toNat < x.toNat := by omega
        simpa [charsLe, h1, h2] using ih ys
      · right; simp [charsLe, h]

theorem charsLe_trans {a b c : List Char} (h1 : charsLe a b = true)
    (h2 : charsLe b c = true) : charsLe a c = true := by
  induction a generalizing b c with
  | nil => simp [charsLe]
  | cons x xs ih =>
    cases b with
    | nil => simp [charsLe] at h1
    | cons y ys =>
      cases c with
      | nil => simp [charsLe] at h2
      | cons z zs =>
        by_cases hxy : x.toNat < y.toNat
        · by_cases hyz : y.toNat < z.toNat
          · simp [charsLe, show x.toNat < z.toNat by omega]
          · by_cases hzy : z.toNat < y.toNat
            · simp [charsLe, hyz, hzy] at h2
            · simp [charsLe, show x.toNat < z.toNat by omega]
        · by_cases hyx : y.toNat < x.toNat
          · simp [charsLe, hxy, hyx] at h1
          · simp only [charsLe, if_neg hxy, if_neg hyx] at h1
            by_cases hyz : y.toNat < z.toNat
            · simp [charsLe, show x.toNat < z.toNat by omega]
            · by_cases hzy : z.toNat < y.toNat
              · simp [charsLe, hyz, hzy] at h2
              · simp only [charsLe, if_neg hyz, if_neg hzy] at h2
                have hn1 : ¬x.toNat < z.toNat := by omega
                have hn2 : ¬z.toNat < x.toNat := by omega
                simp only [charsLe, if_neg hn1, if_neg hn2]
                exact ih h1 h2

theorem charsLe_antisymm {a b : List Char} (h1 : charsLe a b = true)
    (h2 : charsLe b a = true) : a = b := by
  induction a generalizing b with
  | nil =>
    cases b with
    | nil => rfl
    | cons y ys => simp [charsLe] at h2
  | cons x xs ih =>
    cases b with
    | nil => simp [charsLe] at h1
    | cons y ys =>
      by_cases hxy : x.toNat < y.toNat
      · simp [charsLe, hxy, show ¬y.toNat < x.toNat by omega] at h2
      · by_cases hyx : y.toNat < x.toNat
        · simp [charsLe, hxy, hyx] at h1
        · simp only [charsLe, if_neg hxy, if_neg hyx] at h1 h2
          have h3 : x.toNat = y.toNat := by omega
          have hx : x = y := Char.ext (UInt32.ext h3)
          rw [hx, ih h1 h2]

theorem strLe_total (a b : String) : strLe a b = true ∨ strLe b a = true :=
  charsLe_total a.data b.data

theorem strLe_trans {a b c : String} (h1 : strLe a b = true) (h2 : strLe b c = true) :
    strLe a c = true :=
  charsLe_trans h1 h2

theorem strLe_antisymm {a b : String} (h1 : strLe a b = true) (h2 : strLe b a = true) :
    a = b :=
  String.ext (charsLe_antisymm h1 h2)

/-! ### Arithmetic of the per-topic range layout -/

namespace RangePartitionAssignor

theorem chunkLen_eq (P M i : Nat) :
    chunkLen P M i = P / M + if i < P % M then 1 else 0 := by
  unfold chunkLen
  rcases Nat.lt_or_ge i (P % M) with h | h
  · rw [if_neg (by omega), if_pos h]
  · rw [if_pos (by omega), if_neg (by omega), Nat.add_zero]

theorem chunkStart_succ (P M i : Nat) :
    chunkStart P M (i + 1) = chunkStart P M i + chunkLen P M i := by
  unfold chunkStart
  rw [chunkLen_eq]
  rcases Nat.lt_or_ge i (P % M) with h | h
  · rw [if_pos h]
    have h1 : min (i + 1) (P % M) = min i (P % M) + 1 := by omega
    rw [h1, Nat.mul_succ]
    ring
  · rw [if_neg (by omega)]
    have h1 : min (i + 1) (P % M) = min i (P % M) := by omega
    rw [h1, Nat.mul_succ]
    ring

theorem chunkStart_zero (P M : Nat) : chunkStart P M 0 = 0 := by
  simp [chunkStart]

theorem chunkStart_top (P M : Nat) (hM : 0 < M) : chunkStart P M M = P := by
  unfold chunkStart
  have h1 : P % M < M := Nat.mod_lt _ hM
  have h2 : min M (P % M) = P % M := by omega
  rw [h2, Nat.mul_comm, Nat.div_add_mod]

theorem chunkStart_mono (P M : Nat) {i j : Nat} (h : i ≤ j) :
    chunkStart P M i ≤ chunkStart P M j := by
  induction j with
  | zero =>
    have hz : i = 0 := by omega
    subst hz
    exact Nat.le_refl _
  | succ j ih =>
    rcases Nat.lt_or_ge i (j + 1) with h' | h'
    · have h2 := ih (by omega)
      rw [chunkStart_succ]
      omega
    · have hz : i = j + 1 := by omega
      subst hz
      exact Nat.le_refl _

theorem chunksFlatten (pl : List Nat) (M : Nat) :
    ∀ k, (((List.range k).map fun i => chunk pl M i)).flatten =
      pl.take (chunkStart pl.length M k) := by
  intro k
  induction k with
  | zero => simp [chunkStart_zero]
  | succ k ih =>
    rw [List.range_succ, List.map_append, List.flatten_append, ih]
    simp only [List.map_cons, List.map_nil, List.flatten_cons, List.flatten_nil,
      List.append_nil, chunk]
    rw [chunkStart_succ, List.take_add]

theorem chunksFlatten_top (pl : List Nat) (M : Nat) (hM : 0 < M) :
    (((List.range M).map fun i => chunk pl M i)).flatten = pl := by
  rw [chunksFlatten, chunkStart_top _ _ hM, List.take_length]

theorem chunk_length (pl : List Nat) (M i : Nat) (hM : 0 < M) (hi : i < M) :
    (chunk pl M i).length = chunkLen pl.length M i := by
  unfold chunk
  rw [List.length_take, List.length_drop]
  have h1 : chunkStart pl.length M i + chunkLen pl.length M i =
      chunkStart pl.length M (i + 1) := (chunkStart_succ _ _ _).symm
  have h2 : chunkStart pl.length M (i + 1) ≤ pl.length := by
    have := chunkStart_mono pl.length M (show i + 1 ≤ M by omega)
    rw [chunkStart_top _ _ hM] at this
    exact this
  omega

end RangePartitionAssignor

/-! ### Structure of the per-topic writes -/

namespace RangePartitionAssignor

theorem topicWrites_none {cluster : ClusterMetadata} {members : Members} {topic : String}
    (h : cluster topic = none) : topicWrites cluster members topic = [] := by
  unfold topicWrites
  rw [h]

theorem topicWrites_some {cluster : ClusterMetadata} {members : Members} {topic : String}
    {ps : List Nat} (h : cluster topic = some ps) :
    topicWrites cluster members topic =
      (sortedConsumers (consumersForTopic members topic)).enum.map fun p =>
        (p.2, chunk (sortedPartitions ps)
          (sortedConsumers (consumersForTopic members topic)).length p.1) := by
  unfold topicWrites
  rw [h]
  simp only [chunk, chunkStart, chunkLen, gt_iff_lt]

theorem writes_map_snd {cluster : ClusterMetadata} {members : Members} {topic : String}
    {ps : List Nat} (h : cluster topic = some ps) :
    (topicWrites cluster members topic).map Prod.snd =
      (List.range (sortedConsumers (consumersForTopic members topic)).length).map
        (chunk (sortedPartitions ps)
          (sortedConsumers (consumersForTopic members topic)).length) := by
  rw [topicWrites_some h, List.map_map]
  have h1 : (Prod.snd ∘ fun p : Nat × String =>
      (p.2, chunk (sortedPartitions ps)
        (sortedConsumers (consumersForTopic members topic)).length p.1)) =
      (fun p : Nat × String => chunk (sortedPartitions ps)
        (sortedConsumers (consumersForTopic members topic)).length p.1) := rfl
  rw [h1]
  have h2 : (fun p : Nat × String => chunk (sortedPartitions ps)
      (sortedConsumers (consumersForTopic members topic)).length p.1) =
      ((chunk (sortedPartitions ps)
        (sortedConsumers (consumersForTopic members topic)).length) ∘ Prod.fst) := rfl
  rw [h2, ← List.map_map, List.enum_map_fst]

/-! ### Last-write-wins dictionary lookups -/

theorem dictLast_mem {ws : List (String × List Nat)} {mid : String} {l : List Nat}
    (h : dictLast ws mid = some l) : (mid, l) ∈ ws := by
  unfold dictLast at h
  rw [Option.map_eq_some'] at h
  obtain ⟨w, hw, hw2⟩ := h
  have hmem : w ∈ ws.filter fun w => w.1 == mid := by
    obtain ⟨hne, rfl⟩ := List.mem_getLast?_eq_getLast hw
    exact List.getLast_mem _
  rw [List.mem_filter] at hmem
  obtain ⟨hin, hpred⟩ := hmem
  have : w.1 = mid := by simpa using hpred
  have hw' : w = (mid, l) := by
    cases w
    simp_all
  rwa [hw'] at hin

theorem filter_enumFrom_not_mem (g : Nat → List Nat) (cs : List String) (mid : String)
    (h : mid ∉ cs) (n : Nat) :
    (((cs.enumFrom n).map fun p => (p.2, g p.1)).filter fun w => w.1 == mid) = [] := by
  induction cs generalizing n with
  | nil => rfl
  | cons c cs ih =>
    rw [List.enumFrom_cons, List.map_cons]
    have hc : ¬(c == mid) = true := by
      simp only [beq_iff_eq]
      intro hh
      exact h (hh ▸ List.mem_cons_self c cs)
    rw [List.filter_cons_of_neg (by simpa using hc)]
    exact ih (fun hm => h (List.mem_cons_of_mem c hm)) (n + 1)

theorem filter_enumFrom_get (g : Nat → List Nat) {cs : List String} (hnd : cs.Nodup)
    (i : Nat) (h : i < cs.length) (n : Nat) :
    (((cs.enumFrom n).map fun p => (p.2, g p.1)).filter fun w => w.1 == cs.get ⟨i, h⟩) =
      [(cs.get ⟨i, h⟩, g (n + i))] := by
  induction cs generalizing n i with
  | nil => simp at h
  | cons c cs ih =>
    rw [List.enumFrom_cons, List.map_cons]
    cases i with
    | zero =>
      have hget : (c :: cs).get ⟨0, h⟩ = c := rfl
      rw [hget, List.filter_cons_of_pos (by simp)]
      rw [filter_enumFrom_not_mem g cs c (List.Nodup.not_mem hnd) (n + 1)]
      simp
    | succ i =>
      have hget : (c :: cs).get ⟨i + 1, h⟩ = cs.get ⟨i, by simpa using h⟩ := rfl
      rw [hget]
      have hcne : ¬(c == cs.get ⟨i, by simpa using h⟩) = true := by
        simp only [beq_iff_eq]
        intro hh
        exact List.Nodup.not_mem hnd (hh ▸ List.get_mem cs _ _)
      rw [List.filter_cons_of_neg (by simpa using hcne)]
      have := ih (List.Nodup.of_cons hnd) i (by simpa using h) (n + 1)
      rw [this]
      have harith : n + 1 + i = n + (i + 1) := by omega
      rw [harith]

theorem dictLast_get (g : Nat → List Nat) {cs : List String} (hnd : cs.Nodup)
    (i : Nat) (h : i < cs.length) :
    dictLast (cs.enum.map fun p => (p.2, g p.1)) (cs.get ⟨i, h⟩) = some (g i) := by
  unfold dictLast
  have henum : cs.enum = cs.enumFrom 0 := rfl
  rw [henum, filter_enumFrom_get g hnd i h 0]
  simp

theorem dictLast_not_mem (g : Nat → List Nat) {cs : List String} {mid : String}
    (h : mid ∉ cs) :
    dictLast (cs.enum.map fun p => (p.2, g p.1)) mid = none := by
  unfold dictLast
  have henum : cs.enum = cs.enumFrom 0 := rfl
  rw [henum, filter_enumFrom_not_mem g cs mid h 0]
  rfl

theorem dictLast_isSome_of_mem (g : Nat → List Nat) {cs : List String} {mid : String}
    (h : mid ∈ cs) :
    ∃ l, dictLast (cs.enum.map fun p => (p.2, g p.1)) mid = some l := by
  unfold dictLast
  have hkeys : ((cs.enum.map fun p : Nat × String => (p.2, g p.1)).map Prod.fst) = cs := by
    rw [List.map_map]
    have hcomp : (Prod.fst ∘ fun p : Nat × String => (p.2, g p.1)) =
        (Prod.snd : Nat × String → String) := rfl
    rw [hcomp, List.enum_map_snd]
  have hmem : mid ∈ (cs.enum.map fun p : Nat × String => (p.2, g p.1)).map Prod.fst := by
    rw [hkeys]
    exact h
  obtain ⟨w, hw, hww⟩ := List.mem_map.mp hmem
  have hwf : w ∈ (cs.enum.map fun p : Nat × String => (p.2, g p.1)).filter
      fun w => w.1 == mid :=
    List.mem_filter.mpr ⟨hw, by rw [hww]; exact beq_self_eq_true mid⟩
  obtain ⟨x, hx⟩ := Option.isSome_iff_exists.mp
    (List.getLast?_isSome.mpr (List.ne_nil_of_mem hwf))
  exact ⟨x.2, by rw [hx]; rfl⟩

end RangePartitionAssignor

/-! ### Consumer sets and association-list lookups -/

namespace RangePartitionAssignor

theorem mem_consumersForTopic {members : Members} {topic mid : String} :
    mid ∈ consumersForTopic members topic ↔
      ∃ md, (mid, md) ∈ members ∧ topic ∈ md.subscription := by
  unfold consumersForTopic
  rw [List.mem_flatMap]
  constructor
  · rintro ⟨p, hp, hmem⟩
    rw [List.mem_map] at hmem
    obtain ⟨t, ht, heq⟩ := hmem
    rw [List.mem_filter, beq_iff_eq] at ht
    refine ⟨p.2, ?_, ht.2 ▸ ht.1⟩
    have hpp : p = (mid, p.2) := by
      cases p
      simp_all
    rwa [hpp] at hp
  · rintro ⟨md, hmem, ht⟩
    refine ⟨(mid, md), hmem, ?_⟩
    rw [List.mem_map]
    refine ⟨topic, ?_, rfl⟩
    rw [List.mem_filter, beq_iff_eq]
    exact ⟨ht, rfl⟩

theorem consumers_sub_keys {members : Members} {topic mid : String}
    (h : mid ∈ consumersForTopic members topic) : mid ∈ members.map Prod.fst := by
  obtain ⟨md, hm, _⟩ := mem_consumersForTopic.mp h
  exact List.mem_map.mpr ⟨(mid, md), hm, rfl⟩

theorem nodup_of_length_le_one {l : List String} (h : l.length ≤ 1) : l.Nodup := by
  cases l with
  | nil => exact List.nodup_nil
  | cons a l' =>
    cases l' with
    | nil => simp
    | cons b l'' => simp at h

theorem length_le_one_of_nodup_const {l : List String} {t : String} (hnd : l.Nodup)
    (hall : ∀ x ∈ l, x = t) : l.length ≤ 1 := by
  cases l with
  | nil => simp
  | cons a l' =>
    cases l' with
    | nil => simp
    | cons b l'' =>
      exfalso
      have ha := hall a (by simp)
      have hb := hall b (by simp)
      rw [List.nodup_cons] at hnd
      exact hnd.1 (by rw [ha, hb]; simp)

theorem consumersForTopic_nodup {members : Members} (topic : String)
    (hkeys : (members.map Prod.fst).Nodup)
    (hsubs : ∀ p ∈ members, p.2.subscription.Nodup) :
    (consumersForTopic members topic).Nodup := by
  induction members with
  | nil => exact List.nodup_nil
  | cons m ms ih =>
    rw [List.map_cons, List.nodup_cons] at hkeys
    have ihh := ih hkeys.2 fun p hp => hsubs p (List.mem_cons_of_mem m hp)
    show (consumersForTopic (m :: ms) topic).Nodup
    unfold consumersForTopic
    rw [List.flatMap_cons]
    rw [List.nodup_append]
    refine ⟨?_, ihh, ?_⟩
    · apply nodup_of_length_le_one
      rw [List.length_map]
      apply length_le_one_of_nodup_const
        (List.Nodup.filter _ (hsubs m (List.mem_cons_self _ _)))
      intro x hx
      rw [List.mem_filter, beq_iff_eq] at hx
      exact hx.2
    · intro x hx hx'
      rw [List.mem_map] at hx
      obtain ⟨t, _, rfl⟩ := hx
      exact hkeys.1 (consumers_sub_keys hx')

theorem topic_mem_subscribedTopics {members : Members} {topic : String}
    (h : consumersForTopic members topic ≠ []) : topic ∈ subscribedTopics members := by
  obtain ⟨mid, hmid⟩ := List.exists_mem_of_ne_nil _ h
  obtain ⟨md, hmem, ht⟩ := mem_consumersForTopic.mp hmid
  unfold subscribedTopics
  rw [List.mem_dedup, List.mem_flatMap]
  exact ⟨(mid, md), hmem, ht⟩

theorem lookup_map_self {γ β : Type} (l : List (String × γ)) (f : String → β)
    {mid : String} (h : mid ∈ l.map Prod.fst) :
    (l.map fun p => (p.1, f p.1)).lookup mid = some (f mid) := by
  induction l with
  | nil => simp at h
  | cons m ms ih =>
    rw [List.map_cons]
    cases hbeq : mid == m.1 with
    | true =>
      rw [beq_iff_eq] at hbeq
      subst hbeq
      simp [List.lookup]
    | false =>
      have hne : mid ≠ m.1 := by
        intro hh
        rw [hh] at hbeq
        simp at hbeq
      have hmem : mid ∈ ms.map Prod.fst := by
        rw [List.map_cons] at h
        rcases List.mem_cons.mp h with h1 | h1
        · exact absurd h1 hne
        · exact h1
      simp only [List.lookup, hbeq]
      exact ih hmem

theorem lookup_map_self_none {γ β : Type} (l : List (String × γ)) (f : String → β)
    {mid : String} (h : mid ∉ l.map Prod.fst) :
    (l.map fun p => (p.1, f p.1)).lookup mid = none := by
  induction l with
  | nil => rfl
  | cons m ms ih =>
    rw [List.map_cons] at h ⊢
    have hne : mid ≠ m.1 := fun hh => h (by rw [hh]; simp)
    have hbeq : (mid == m.1) = false := by
      simp [hne]
    simp only [List.lookup, hbeq]
    exact ih fun hh => h (List.mem_cons_of_mem _ hh)

end RangePartitionAssignor

/-! ### The per-member assignment pairs -/

namespace RangePartitionAssignor

theorem assign_lookup_mem {cluster : ClusterMetadata} {ms : Members} {mid : String}
    (h : mid ∈ ms.map Prod.fst) :
    (assign cluster ms).lookup mid =
      some ⟨version, memberAssignmentPairs cluster ms mid, []⟩ :=
  lookup_map_self ms (fun s => (⟨version, memberAssignmentPairs cluster ms s, []⟩ :
    ConsumerProtocolMemberAssignment)) h

theorem assign_lookup_not_mem {cluster : ClusterMetadata} {ms : Members} {mid : String}
    (h : mid ∉ ms.map Prod.fst) :
    (assign cluster ms).lookup mid = none :=
  lookup_map_self_none ms (fun s => (⟨version, memberAssignmentPairs cluster ms s, []⟩ :
    ConsumerProtocolMemberAssignment)) h

theorem assign_lookup_inv {cluster : ClusterMetadata} {ms : Members} {mid : String}
    {a : ConsumerProtocolMemberAssignment} (h : (assign cluster ms).lookup mid = some a) :
    a = ⟨version, memberAssignmentPairs cluster ms mid, []⟩ := by
  by_cases hmem : mid ∈ ms.map Prod.fst
  · rw [assign_lookup_mem hmem] at h
    exact (Option.some_inj.mp h).symm
  · rw [assign_lookup_not_mem hmem] at h
    exact absurd h (by simp)

theorem lookup_eq_some_of_nodupkeys {β : Type} {l : List (String × β)}
    (hnd : (l.map Prod.fst).Nodup) {k : String} {v : β} :
    l.lookup k = some v ↔ (k, v) ∈ l := by
  induction l with
  | nil => simp [List.lookup]
  | cons p l ih =>
    obtain ⟨a, b⟩ := p
    rw [List.map_cons, List.nodup_cons] at hnd
    by_cases hka : k = a
    · subst hka
      rw [show ((k, b) :: l).lookup k = some b by simp [List.lookup]]
      constructor
      · intro hv
        have hbv : b = v := Option.some_inj.mp hv
        exact hbv ▸ List.mem_cons_self _ _
      · intro hv
        rcases List.mem_cons.mp hv with h1 | h1
        · rw [(Prod.mk.injEq _ _ _ _).mp h1.symm |>.2]
        · exact absurd (List.mem_map.mpr ⟨(k, v), h1, rfl⟩) hnd.1
    · have hbeq : (k == a) = false := by simp [hka]
      rw [show ((a, b) :: l).lookup k = l.lookup k by simp [List.lookup, hbeq]]
      rw [ih hnd.2, List.mem_cons]
      constructor
      · exact Or.inr
      · rintro (h1 | h1)
        · exact absurd (congrArg Prod.fst h1) hka
        · exact h1

theorem filterMap_keys_sublist {γ : Type} (g : String → Option γ) (topics : List String) :
    ((topics.filterMap fun t => (g t).map fun v => (t, v)).map Prod.fst).Sublist topics := by
  induction topics with
  | nil => simp
  | cons t ts ih =>
    rw [List.filterMap_cons]
    cases hg : g t with
    | none =>
      simp only [Option.map_none']
      exact ih.cons t
    | some v =>
      simp only [Option.map_some', List.map_cons]
      exact ih.cons₂ t

theorem subscribedTopics_nodup (ms : Members) : (subscribedTopics ms).Nodup :=
  List.nodup_dedup _

theorem pairs_keys_nodup (cluster : ClusterMetadata) (ms : Members) (mid : String) :
    ((memberAssignmentPairs cluster ms mid).map Prod.fst).Nodup := by
  unfold memberAssignmentPairs
  have hperm := List.perm_insertionSort (fun a b : String × List Nat => strLe a.1 b.1 = true)
    ((subscribedTopics ms).filterMap fun t =>
      (dictLast (topicWrites cluster ms t) mid).map fun l => (t, l))
  rw [(hperm.map Prod.fst).nodup_iff]
  exact ((filterMap_keys_sublist _ _).nodup) (subscribedTopics_nodup ms)

theorem mem_pairs_iff {cluster : ClusterMetadata} {ms : Members} {mid t : String}
    {l : List Nat} :
    (t, l) ∈ memberAssignmentPairs cluster ms mid ↔
      t ∈ subscribedTopics ms ∧ dictLast (topicWrites cluster ms t) mid = some l := by
  unfold memberAssignmentPairs
  rw [(List.perm_insertionSort _ _).mem_iff, List.mem_filterMap]
  constructor
  · rintro ⟨t', ht', heq⟩
    rw [Option.map_eq_some'] at heq
    obtain ⟨l', hl', heq2⟩ := heq
    have ht2 : t' = t ∧ l' = l := by
      constructor
      · exact congrArg Prod.fst heq2
      · exact congrArg Prod.snd heq2
    rw [ht2.1] at ht' hl'
    rw [ht2.2] at hl'
    exact ⟨ht', hl'⟩
  · rintro ⟨ht, hd⟩
    refine ⟨t, ht, ?_⟩
    rw [hd]
    rfl

theorem pairs_lookup_iff {cluster : ClusterMetadata} {ms : Members} {mid t : String}
    {l : List Nat} :
    (memberAssignmentPairs cluster ms mid).lookup t = some l ↔
      t ∈ subscribedTopics ms ∧ dictLast (topicWrites cluster ms t) mid = some l := by
  rw [lookup_eq_some_of_nodupkeys (pairs_keys_nodup cluster ms mid), mem_pairs_iff]

theorem assignedTo_of_lookup {cluster : ClusterMetadata} {ms : Members} {mid t : String}
    {l : List Nat} (hmem : mid ∈ ms.map Prod.fst)
    (h : (memberAssignmentPairs cluster ms mid).lookup t = some l) :
    assignedTo cluster ms mid t = l := by
  unfold assignedTo
  rw [assign_lookup_mem hmem]
  simp only []
  rw [h]

theorem assignedTo_sub {cluster : ClusterMetadata} {ms : Members} {mid t : String}
    {q : Nat} (hq : q ∈ assignedTo cluster ms mid t) :
    ∃ l, dictLast (topicWrites cluster ms t) mid = some l ∧ q ∈ l := by
  unfold assignedTo at hq
  split at hq
  · simp at hq
  · rename_i a hh
    split at hq
    · simp at hq
    · rename_i l hh2
      have ha := assign_lookup_inv hh
      rw [ha] at hh2
      exact ⟨l, (pairs_lookup_iff.mp hh2).2, hq⟩

end RangePartitionAssignor

/-! ### Sorting facts and the chunk decomposition -/

namespace RangePartitionAssignor

theorem sortedConsumers_perm (l : List String) : (sortedConsumers l).Perm l :=
  List.perm_insertionSort _ l

theorem sortedConsumers_sorted (l : List String) :
    List.Sorted (fun a b => strLe a b = true) (sortedConsumers l) := by
  haveI : IsTotal String (fun a b => strLe a b = true) := ⟨strLe_total⟩
  haveI : IsTrans String (fun a b => strLe a b = true) :=
    ⟨fun _ _ _ hab hbc => strLe_trans hab hbc⟩
  exact List.sorted_insertionSort _ l

theorem sortedPartitions_perm (l : List Nat) : (sortedPartitions l).Perm l :=
  List.perm_insertionSort _ l

theorem sortedPartitions_sorted (l : List Nat) :
    List.Sorted (· ≤ ·) (sortedPartitions l) :=
  List.sorted_insertionSort _ l

theorem dictLast_topicWrites_not_mem {cluster : ClusterMetadata} {ms : Members}
    {topic mid : String} (h : mid ∉ consumersForTopic ms topic) :
    dictLast (topicWrites cluster ms topic) mid = none := by
  cases hcl : cluster topic with
  | none =>
    rw [topicWrites_none hcl]
    rfl
  | some ps =>
    rw [topicWrites_some hcl]
    apply dictLast_not_mem
    intro hmem
    exact h ((sortedConsumers_perm _).subset hmem)

theorem topic_entry_exists {cluster : ClusterMetadata} {ms : Members} {mid t : String}
    {ps : List Nat} (hps : cluster t = some ps) (hc : mid ∈ consumersForTopic ms t) :
    ∃ l, (t, l) ∈ memberAssignmentPairs cluster ms mid := by
  have hsub : t ∈ subscribedTopics ms :=
    topic_mem_subscribedTopics (List.ne_nil_of_mem hc)
  have hmid : mid ∈ sortedConsumers (consumersForTopic ms t) :=
    (sortedConsumers_perm _).mem_iff.mpr hc
  obtain ⟨l, hl⟩ := dictLast_isSome_of_mem
    (chunk (sortedPartitions ps) (sortedConsumers (consumersForTopic ms t)).length) hmid
  refine ⟨l, mem_pairs_iff.mpr ⟨hsub, ?_⟩⟩
  rw [topicWrites_some hps]
  exact hl

theorem assignedTo_get {cluster : ClusterMetadata} {ms : Members} {topic : String}
    {ps : List Nat} (hcl : cluster topic = some ps)
    (hnd : (consumersForTopic ms topic).Nodup)
    (i : Nat) (hi : i < (sortedConsumers (consumersForTopic ms topic)).length) :
    assignedTo cluster ms ((sortedConsumers (consumersForTopic ms topic)).get ⟨i, hi⟩) topic
      = chunk (sortedPartitions ps)
          (sortedConsumers (consumersForTopic ms topic)).length i := by
  have hcsnd : (sortedConsumers (consumersForTopic ms topic)).Nodup :=
    ((sortedConsumers_perm _).nodup_iff).mpr hnd
  have hmem0 : (sortedConsumers (consumersForTopic ms topic)).get ⟨i, hi⟩ ∈
      consumersForTopic ms topic :=
    (sortedConsumers_perm _).subset (List.get_mem _ _ _)
  apply assignedTo_of_lookup (consumers_sub_keys hmem0)
  rw [pairs_lookup_iff]
  refine ⟨topic_mem_subscribedTopics ?_, ?_⟩
  · intro hemp
    have hcs : sortedConsumers (consumersForTopic ms topic) = [] := by
      rw [hemp]
      rfl
    rw [hcs] at hi
    simp at hi
  · rw [topicWrites_some hcl]
    exact dictLast_get _ hcsnd i hi

theorem mem_chunks_iff {pl : List Nat} {M : Nat} (hM : 0 < M) {q : Nat} :
    q ∈ pl ↔ ∃ i, i < M ∧ q ∈ chunk pl M i := by
  have h := chunksFlatten_top pl M hM
  constructor
  · intro hq
    have h2 : q ∈ (((List.range M).map fun i => chunk pl M i)).flatten := by
      rw [h]
      exact hq
    rw [List.mem_flatten] at h2
    obtain ⟨l, hl, hql⟩ := h2
    rw [List.mem_map] at hl
    obtain ⟨i, hi, rfl⟩ := hl
    exact ⟨i, List.mem_range.mp hi, hql⟩
  · rintro ⟨i, hi, hq⟩
    have h2 : q ∈ (((List.range M).map fun i => chunk pl M i)).flatten :=
      List.mem_flatten.mpr ⟨chunk pl M i, List.mem_map.mpr ⟨i, List.mem_range.mpr hi, rfl⟩, hq⟩
    rw [h] at h2
    exact h2

theorem chunks_disjoint {pl : List Nat} (hnd : pl.Nodup) {M : Nat} (hM : 0 < M)
    {i j : Nat} (hi : i < M) (hj : j < M) (hij : i ≠ j) {q : Nat}
    (hqi : q ∈ chunk pl M i) (hqj : q ∈ chunk pl M j) : False := by
  have hfl := chunksFlatten_top pl M hM
  have hflnd : (((List.range M).map fun i => chunk pl M i)).flatten.Nodup := by
    rw [hfl]
    exact hnd
  rw [List.nodup_flatten] at hflnd
  have hP := hflnd.2
  rw [List.pairwise_map] at hP
  have key : ∀ a b : Nat, a < M → b < M → a < b → ∀ x, x ∈ chunk pl M a →
      x ∈ chunk pl M b → False := by
    intro a b ha hb hab x hxa hxb
    have hd := (List.pairwise_iff_get.mp hP)
      ⟨a, by simpa using ha⟩ ⟨b, by simpa using hb⟩ (by simpa using hab)
    rw [List.get_range, List.get_range] at hd
    exact hd hxa hxb
  rcases Nat.lt_or_ge i j with h | h
  · exact key i j hi hj h q hqi hqj
  · exact key j i hj hi (by omega) q hqj hqi

/-- Claim C1: for every topic-partition metadata mapping and every non-empty
set of members subscribed to a topic with known partitions, the per-topic
union of the partition lists `assign` gives to the subscribed members equals
exactly that topic's known partition set, and no partition appears in more
than one member's list for that topic. -/
theorem C1_coverage_invariant (cluster : ClusterMetadata) (ms : Members)
    (topic : String) (ps : List Nat)
    (hcl : cluster topic = some ps) (hps : ps.Nodup)
    (hkeys : (ms.map Prod.fst).Nodup)
    (hsubs : ∀ p ∈ ms, p.2.subscription.Nodup)
    (hne : consumersForTopic ms topic ≠ []) :
    (∀ q, q ∈ ps ↔ ∃ mid ∈ consumersForTopic ms topic,
        q ∈ assignedTo cluster ms mid topic) ∧
    (∀ m₁ m₂ q, m₁ ∈ consumersForTopic ms topic → m₂ ∈ consumersForTopic ms topic →
        q ∈ assignedTo cluster ms m₁ topic → q ∈ assignedTo cluster ms m₂ topic →
        m₁ = m₂) := by
  have hCnd : (consumersForTopic ms topic).Nodup :=
    consumersForTopic_nodup topic hkeys hsubs
  have hlen : (sortedConsumers (consumersForTopic ms topic)).length =
      (consumersForTopic ms topic).length :=
    (sortedConsumers_perm _).length_eq
  have hM : 0 < (sortedConsumers (consumersForTopic ms topic)).length := by
    rw [hlen]
    exact List.length_pos.mpr hne
  have hplnd : (sortedPartitions ps).Nodup := ((sortedPartitions_perm ps).nodup_iff).mpr hps
  have hidx : ∀ mid ∈ consumersForTopic ms topic,
      ∃ i hi, (sortedConsumers (consumersForTopic ms topic)).get ⟨i, hi⟩ = mid := by
    intro mid hmid
    have : mid ∈ sortedConsumers (consumersForTopic ms topic) :=
      ((sortedConsumers_perm _).mem_iff).mpr hmid
    obtain ⟨⟨i, hi⟩, hget⟩ := List.mem_iff_get.mp this
    exact ⟨i, hi, hget⟩
  constructor
  · intro q
    constructor
    · intro hq
      have hq2 : q ∈ sortedPartitions ps := ((sortedPartitions_perm ps).mem_iff).mpr hq
      obtain ⟨i, hi, hqc⟩ := (mem_chunks_iff hM).mp hq2
      refine ⟨(sortedConsumers (consumersForTopic ms topic)).get ⟨i, hi⟩,
        (sortedConsumers_perm _).subset (List.get_mem _ _ _), ?_⟩
      rw [assignedTo_get hcl hCnd i hi]
      exact hqc
    · rintro ⟨mid, hmid, hq⟩
      obtain ⟨i, hi, hget⟩ := hidx mid hmid
      rw [← hget, assignedTo_get hcl hCnd i hi] at hq
      have hq2 : q ∈ sortedPartitions ps := (mem_chunks_iff hM).mpr ⟨i, hi, hq⟩
      exact ((sortedPartitions_perm ps).mem_iff).mp hq2
  · intro m₁ m₂ q hm₁ hm₂ hq₁ hq₂
    obtain ⟨i, hi, hgi⟩ := hidx m₁ hm₁
    obtain ⟨j, hj, hgj⟩ := hidx m₂ hm₂
    rw [← hgi, assignedTo_get hcl hCnd i hi] at hq₁
    rw [← hgj, assignedTo_get hcl hCnd j hj] at hq₂
    by_cases hij : i = j
    · rw [← hgi, ← hgj]
      subst hij
      rfl
    · exact absurd (chunks_disjoint hplnd hM hi hj hij hq₁ hq₂) (by simp)

end RangePartitionAssignor

namespace RangePartitionAssignor

/-- Claim C2: for every topic with P known partitions and M subscribed
members, `assign` gives each member either P/M or P/M + 1 partitions of that
topic; the member at lexicographic index i of the sorted member list receives
exactly the contiguous run of the numerically sorted partition list starting
at P/M * i + min i (P mod M), of length P/M + 1 precisely when i < P mod M. -/
theorem C2_balance_invariant (cluster : ClusterMetadata) (ms : Members)
    (topic : String) (ps : List Nat)
    (hcl : cluster topic = some ps) (hps : ps.Nodup)
    (hkeys : (ms.map Prod.fst).Nodup)
    (hsubs : ∀ p ∈ ms, p.2.subscription.Nodup)
    (hne : consumersForTopic ms topic ≠ []) :
    List.Sorted (fun a b => strLe a b = true)
      (sortedConsumers (consumersForTopic ms topic)) ∧
    (sortedConsumers (consumersForTopic ms topic)).Perm (consumersForTopic ms topic) ∧
    ∀ i (hi : i < (sortedConsumers (consumersForTopic ms topic)).length),
      assignedTo cluster ms
          ((sortedConsumers (consumersForTopic ms topic)).get ⟨i, hi⟩) topic =
        ((sortedPartitions ps).drop
          (ps.length / (consumersForTopic ms topic).length * i +
            min i (ps.length % (consumersForTopic ms topic).length))).take
          (ps.length / (consumersForTopic ms topic).length +
            if i < ps.length % (consumersForTopic ms topic).length then 1 else 0) ∧
      (assignedTo cluster ms
          ((sortedConsumers (consumersForTopic ms topic)).get ⟨i, hi⟩) topic).length =
        ps.length / (consumersForTopic ms topic).length +
          (if i < ps.length % (consumersForTopic ms topic).length then 1 else 0) ∧
      ((assignedTo cluster ms
          ((sortedConsumers (consumersForTopic ms topic)).get ⟨i, hi⟩) topic).length =
        ps.length / (consumersForTopic ms topic).length + 1 ↔
          i < ps.length % (consumersForTopic ms topic).length) := by
  have hCnd : (consumersForTopic ms topic).Nodup :=
    consumersForTopic_nodup topic hkeys hsubs
  have hlen : (sortedConsumers (consumersForTopic ms topic)).length =
      (consumersForTopic ms topic).length :=
    (sortedConsumers_perm _).length_eq
  have hplen : (sortedPartitions ps).length = ps.length :=
    (sortedPartitions_perm ps).length_eq
  refine ⟨sortedConsumers_sorted _, sortedConsumers_perm _, ?_⟩
  intro i hi
  have hM : 0 < (sortedConsumers (consumersForTopic ms topic)).length := by omega
  have hch := assignedTo_get hcl hCnd i hi
  have hchval : chunk (sortedPartitions ps)
      (sortedConsumers (consumersForTopic ms topic)).length i =
      ((sortedPartitions ps).drop
        (ps.length / (consumersForTopic ms topic).length * i +
          min i (ps.length % (consumersForTopic ms topic).length))).take
        (ps.length / (consumersForTopic ms topic).length +
          if i < ps.length % (consumersForTopic ms topic).length then 1 else 0) := by
    unfold chunk
    rw [chunkLen_eq]
    unfold chunkStart
    rw [hplen, hlen]
  have hchlen : (chunk (sortedPartitions ps)
      (sortedConsumers (consumersForTopic ms topic)).length i).length =
      ps.length / (consumersForTopic ms topic).length +
        (if i < ps.length % (consumersForTopic ms topic).length then 1 else 0) := by
    rw [chunk_length _ _ _ hM hi, chunkLen_eq, hplen, hlen]
  refine ⟨by rw [hch, hchval], by rw [hch, hchlen], ?_⟩
  rw [hch, hchlen]
  rcases Nat.lt_or_ge i (ps.length % (consumersForTopic ms topic).length) with h | h
  · rw [if_pos h]
    simp [h]
  · rw [if_neg (by omega)]
    constructor
    · intro hcontr
      omega
    · intro hcontr
      omega

end RangePartitionAssignor

/-! ### Claims C9, C10, C8 -/

namespace RangePartitionAssignor

/-- Claim C9: if a subscribed topic has no partition metadata, `assign` skips
it: no member is given partitions or an entry for it, and the entries for
every other topic coincide with those computed from any cluster metadata
that agrees outside the skipped topic. -/
theorem C9_missing_metadata_skipped (cluster : ClusterMetadata) (ms : Members)
    (topic : String) (h : cluster topic = none) :
    (∀ mid, assignedTo cluster ms mid topic = []) ∧
    (∀ mid a, (assign cluster ms).lookup mid = some a →
      ∀ l, (topic, l) ∉ a.assignment) ∧
    (∀ (cluster' : ClusterMetadata), (∀ t, t ≠ topic → cluster' t = cluster t) →
      ∀ mid a a', (assign cluster ms).lookup mid = some a →
        (assign cluster' ms).lookup mid = some a' →
        ∀ t l, t ≠ topic → ((t, l) ∈ a.assignment ↔ (t, l) ∈ a'.assignment)) := by
  have hdict : ∀ mid, dictLast (topicWrites cluster ms topic) mid = none := by
    intro mid
    rw [topicWrites_none h]
    rfl
  have hpair : ∀ mid l, (topic, l) ∉ memberAssignmentPairs cluster ms mid := by
    intro mid l hmem
    have h2 := (mem_pairs_iff.mp hmem).2
    rw [hdict] at h2
    exact absurd h2 (by simp)
  refine ⟨?_, ?_, ?_⟩
  · intro mid
    unfold assignedTo
    split
    · rfl
    · rename_i a hlk
      split
      · rfl
      · rename_i l hlt
        have ha := assign_lookup_inv hlk
        rw [ha] at hlt
        exact absurd (lookup_eq_some_of_nodupkeys (pairs_keys_nodup cluster ms mid) |>.mp
          hlt) (hpair mid l)
  · intro mid a hlk l hmem
    have ha := assign_lookup_inv hlk
    rw [ha] at hmem
    exact hpair mid l hmem
  · intro cluster' hagree mid a a' h1 h2 t l ht
    have ha := assign_lookup_inv h1
    have ha' := assign_lookup_inv h2
    rw [ha, ha']
    have hw : topicWrites cluster' ms t = topicWrites cluster ms t := by
      unfold topicWrites
      rw [hagree t ht]
    show (t, l) ∈ memberAssignmentPairs cluster ms mid ↔
      (t, l) ∈ memberAssignmentPairs cluster' ms mid
    rw [mem_pairs_iff, mem_pairs_iff, hw]

/-- Claim C10 (amended): the result of `assign` has an entry for every input
member id, keyed in input order; each member's (topic, partitions) pairs are
sorted by topic name; a member appearing in no topic's consumer list gets an
entry with the empty pairs list; and a member in the consumer list of a topic
with known partitions always has a pair for that topic — possibly with an
empty partition list — so a member assigned no partitions need not carry the
empty pairs list. -/
theorem C10_total_output (cluster : ClusterMetadata) (ms : Members) :
    ((assign cluster ms).map Prod.fst = ms.map Prod.fst) ∧
    (∀ p ∈ assign cluster ms,
      List.Sorted (fun a b : String × List Nat => strLe a.1 b.1 = true) p.2.assignment) ∧
    (∀ mid, mid ∈ ms.map Prod.fst →
      (assign cluster ms).lookup mid =
        some ⟨version, memberAssignmentPairs cluster ms mid, []⟩) ∧
    (∀ mid, mid ∈ ms.map Prod.fst → (∀ t, mid ∉ consumersForTopic ms t) →
      (assign cluster ms).lookup mid = some ⟨version, [], []⟩) ∧
    (∀ mid t ps, cluster t = some ps → mid ∈ consumersForTopic ms t →
      ∃ a l, (assign cluster ms).lookup mid = some a ∧ (t, l) ∈ a.assignment) := by
  refine ⟨?_, ?_, ?_, ?_, ?_⟩
  · unfold assign
    rw [List.map_map]
    rfl
  · intro p hp
    unfold assign at hp
    rw [List.mem_map] at hp
    obtain ⟨m, _, rfl⟩ := hp
    haveI : IsTotal (String × List Nat) (fun a b => strLe a.1 b.1 = true) :=
      ⟨fun a b => strLe_total a.1 b.1⟩
    haveI : IsTrans (String × List Nat) (fun a b => strLe a.1 b.1 = true) :=
      ⟨fun _ _ _ hab hbc => strLe_trans hab hbc⟩
    exact List.sorted_insertionSort _ _
  · exact fun mid h => assign_lookup_mem h
  · intro mid hm hnone
    rw [assign_lookup_mem hm]
    have hpairs : memberAssignmentPairs cluster ms mid = [] := by
      unfold memberAssignmentPairs
      have hfm : ((subscribedTopics ms).filterMap fun t =>
          (dictLast (topicWrites cluster ms t) mid).map fun l => (t, l)) = [] := by
        rw [List.filterMap_eq_nil_iff]
        intro t _
        rw [dictLast_topicWrites_not_mem (hnone t)]
        rfl
      rw [hfm]
      rfl
    rw [hpairs]
  · intro mid t ps hps hc
    obtain ⟨l, hl⟩ := topic_entry_exists hps hc
    exact ⟨_, l, assign_lookup_mem (consumers_sub_keys hc), hl⟩

/-- Claim C10, counterexample: with two members "a" and "b" subscribed to the
single-partition topic "t", member "b" is assigned no partitions for any topic
(its slice of "t" is empty), yet its entry's pairs list is [("t", [])], not
the empty list the claim promises. -/
theorem C10_counterexample :
    ("b" ∈ consumersForTopic twoOnOneMembers "t") ∧
    (assignedTo cexCluster twoOnOneMembers "b" "t" = []) ∧
    ((assign cexCluster twoOnOneMembers).lookup "b" =
      some ⟨version, [("t", [])], []⟩) ∧
    ([("t", ([] : List Nat))] ≠ ([] : List (String × List Nat))) := by
  decide

/-- Claim C8 (amended): the user-data payload of every member's assignment
result returned by `assign` is the empty byte string — the subscription's
user-data payload is not carried through (line 72 passes b""). -/
theorem C8_user_data_empty (cluster : ClusterMetadata) (ms : Members) :
    ∀ p ∈ assign cluster ms, p.2.user_data = [] := by
  intro p hp
  unfold assign at hp
  rw [List.mem_map] at hp
  obtain ⟨m, _, rfl⟩ := hp
  rfl

/-- Claim C8, counterexample: member m0 subscribes with user-data [1], yet its
assignment result carries the empty user-data payload, so the user-data is
not carried through unchanged as claimed. -/
theorem C8_counterexample :
    ((assign cexCluster cexMembers).lookup "m0").map
        ConsumerProtocolMemberAssignment.user_data = some [] ∧
    (cexMembers.lookup "m0").map ConsumerProtocolMemberMetadata.user_data = some [1] ∧
    some ([] : List Nat) ≠ some [1] := by
  decide

end RangePartitionAssignor

/-! ### Order independence (claim C3) -/

namespace RangePartitionAssignor

theorem sortedConsumers_eq_of_perm {l₁ l₂ : List String} (h : l₁.Perm l₂) :
    sortedConsumers l₁ = sortedConsumers l₂ := by
  haveI : IsAntisymm String (fun a b => strLe a b = true) :=
    ⟨fun _ _ h1 h2 => strLe_antisymm h1 h2⟩
  exact List.eq_of_perm_of_sorted
    ((sortedConsumers_perm l₁).trans (h.trans (sortedConsumers_perm l₂).symm))
    (sortedConsumers_sorted l₁) (sortedConsumers_sorted l₂)

theorem sortedPartitions_eq_of_perm {l₁ l₂ : List Nat} (h : l₁.Perm l₂) :
    sortedPartitions l₁ = sortedPartitions l₂ :=
  List.eq_of_perm_of_sorted
    ((sortedPartitions_perm l₁).trans (h.trans (sortedPartitions_perm l₂).symm))
    (sortedPartitions_sorted l₁) (sortedPartitions_sorted l₂)

theorem topicWrites_ext {c₁ c₂ : ClusterMetadata} {ms₁ ms₂ : Members} (t : String)
    (hm : ms₁.Perm ms₂)
    (hnone : c₁ t = none → c₂ t = none)
    (hsome : ∀ ps₁, c₁ t = some ps₁ → ∃ ps₂, c₂ t = some ps₂ ∧ ps₁.Perm ps₂) :
    topicWrites c₁ ms₁ t = topicWrites c₂ ms₂ t := by
  have hcons : sortedConsumers (consumersForTopic ms₁ t) =
      sortedConsumers (consumersForTopic ms₂ t) :=
    sortedConsumers_eq_of_perm (hm.flatMap_right _)
  cases hc : c₁ t with
  | none => rw [topicWrites_none hc, topicWrites_none (hnone hc)]
  | some ps₁ =>
    obtain ⟨ps₂, hc₂, hperm⟩ := hsome ps₁ hc
    rw [topicWrites_some hc, topicWrites_some hc₂, hcons,
      sortedPartitions_eq_of_perm hperm]

theorem sortedPairs_eq_of_perm {l₁ l₂ : List (String × List Nat)}
    (h : l₁.Perm l₂) (hnd : (l₁.map Prod.fst).Nodup) :
    l₁.insertionSort (fun a b => strLe a.1 b.1 = true) =
      l₂.insertionSort (fun a b => strLe a.1 b.1 = true) := by
  haveI : IsTotal (String × List Nat) (fun a b => strLe a.1 b.1 = true) :=
    ⟨fun a b => strLe_total a.1 b.1⟩
  haveI : IsTrans (String × List Nat) (fun a b => strLe a.1 b.1 = true) :=
    ⟨fun _ _ _ hab hbc => strLe_trans hab hbc⟩
  have hs₁ := List.sorted_insertionSort (fun a b : String × List Nat => strLe a.1 b.1 = true) l₁
  have hs₂ := List.sorted_insertionSort (fun a b : String × List Nat => strLe a.1 b.1 = true) l₂
  have hperm : (l₁.insertionSort (fun a b => strLe a.1 b.1 = true)).Perm
      (l₂.insertionSort (fun a b => strLe a.1 b.1 = true)) :=
    (List.perm_insertionSort _ l₁).trans (h.trans (List.perm_insertionSort _ l₂).symm)
  have hnd₁ : ((l₁.insertionSort (fun a b => strLe a.1 b.1 = true)).map Prod.fst).Nodup := by
    rw [((List.perm_insertionSort _ l₁).map Prod.fst).nodup_iff]
    exact hnd
  have hnd₂ : ((l₂.insertionSort (fun a b => strLe a.1 b.1 = true)).map Prod.fst).Nodup := by
    rw [← ((hperm).map Prod.fst).nodup_iff]
    exact hnd₁
  have hst₁ : List.Pairwise
      (fun a b : String × List Nat => strLe a.1 b.1 = true ∧ a.1 ≠ b.1)
      (l₁.insertionSort (fun a b => strLe a.1 b.1 = true)) :=
    hs₁.and (List.pairwise_map.mp hnd₁)
  have hst₂ : List.Pairwise
      (fun a b : String × List Nat => strLe a.1 b.1 = true ∧ a.1 ≠ b.1)
      (l₂.insertionSort (fun a b => strLe a.1 b.1 = true)) :=
    hs₂.and (List.pairwise_map.mp hnd₂)
  haveI : IsAntisymm (String × List Nat)
      (fun a b => strLe a.1 b.1 = true ∧ a.1 ≠ b.1) :=
    ⟨fun _ _ h1 h2 => absurd (strLe_antisymm h1.1 h2.1) h1.2⟩
  exact List.eq_of_perm_of_sorted hperm hst₁ hst₂

theorem pairs_ext {c₁ c₂ : ClusterMetadata} {ms₁ ms₂ : Members} (hm : ms₁.Perm ms₂)
    (hnone : ∀ t, c₁ t = none → c₂ t = none)
    (hsome : ∀ t ps₁, c₁ t = some ps₁ → ∃ ps₂, c₂ t = some ps₂ ∧ ps₁.Perm ps₂)
    (mid : String) :
    memberAssignmentPairs c₁ ms₁ mid = memberAssignmentPairs c₂ ms₂ mid := by
  have hfun : ∀ t, ((dictLast (topicWrites c₂ ms₂ t) mid).map fun l => (t, l)) =
      ((dictLast (topicWrites c₁ ms₁ t) mid).map fun l => (t, l)) := by
    intro t
    rw [topicWrites_ext t hm (hnone t) (hsome t)]
  unfold memberAssignmentPairs
  rw [List.filterMap_congr fun t _ => hfun t]
  apply sortedPairs_eq_of_perm
  · exact ((hm.flatMap_right _).dedup).filterMap _
  · exact (filterMap_keys_sublist _ _).nodup (subscribedTopics_nodup ms₁)

/-- Claim C3: `assign` is deterministic and independent of input ordering:
for member dicts equal up to entry order and partition metadata equal up to
per-topic partition order, every member id looks up to an identical
assignment entry. -/
theorem C3_order_independence (c₁ c₂ : ClusterMetadata) (ms₁ ms₂ : Members)
    (hm : ms₁.Perm ms₂)
    (hnone : ∀ t, c₁ t = none → c₂ t = none)
    (hsome : ∀ t ps₁, c₁ t = some ps₁ → ∃ ps₂, c₂ t = some ps₂ ∧ ps₁.Perm ps₂) :
    ∀ mid, (assign c₁ ms₁).lookup mid = (assign c₂ ms₂).lookup mid := by
  intro mid
  by_cases hmem : mid ∈ ms₁.map Prod.fst
  · have hmem₂ : mid ∈ ms₂.map Prod.fst := ((hm.map Prod.fst).mem_iff).mp hmem
    rw [assign_lookup_mem hmem, assign_lookup_mem hmem₂,
      pairs_ext hm hnone hsome mid]
  · have hmem₂ : mid ∉ ms₂.map Prod.fst := fun h =>
      hmem (((hm.map Prod.fst).mem_iff).mpr h)
    rw [assign_lookup_not_mem hmem, assign_lookup_not_mem hmem₂]

end RangePartitionAssignor

/-! ### Witnesses for the assignor claims -/

namespace RangePartitionAssignor

/-- Witness for C1 at the spec's worked example (topic t0, partitions
[0, 1, 2], members C0 and C1). -/
theorem C1_coverage_invariant_witness :
    (∀ q, q ∈ [0, 1, 2] ↔ ∃ mid ∈ consumersForTopic exMembers "t0",
        q ∈ assignedTo exCluster exMembers mid "t0") ∧
    (∀ m₁ m₂ q, m₁ ∈ consumersForTopic exMembers "t0" →
        m₂ ∈ consumersForTopic exMembers "t0" →
        q ∈ assignedTo exCluster exMembers m₁ "t0" →
        q ∈ assignedTo exCluster exMembers m₂ "t0" →
        m₁ = m₂) :=
  C1_coverage_invariant exCluster exMembers "t0" [0, 1, 2]
    (by decide) (by decide) (by decide) (by decide) (by decide)

/-- Witness for C2 at the spec's worked example. -/
theorem C2_balance_invariant_witness :
    List.Sorted (fun a b => strLe a b = true)
      (sortedConsumers (consumersForTopic exMembers "t0")) ∧
    (sortedConsumers (consumersForTopic exMembers "t0")).Perm
      (consumersForTopic exMembers "t0") ∧
    ∀ i (hi : i < (sortedConsumers (consumersForTopic exMembers "t0")).length),
      assignedTo exCluster exMembers
          ((sortedConsumers (consumersForTopic exMembers "t0")).get ⟨i, hi⟩) "t0" =
        ((sortedPartitions [0, 1, 2]).drop
          ([0, 1, 2].length / (consumersForTopic exMembers "t0").length * i +
            min i ([0, 1, 2].length % (consumersForTopic exMembers "t0").length))).take
          ([0, 1, 2].length / (consumersForTopic exMembers "t0").length +
            if i < [0, 1, 2].length % (consumersForTopic exMembers "t0").length
            then 1 else 0) ∧
      (assignedTo exCluster exMembers
          ((sortedConsumers (consumersForTopic exMembers "t0")).get ⟨i, hi⟩) "t0").length =
        [0, 1, 2].length / (consumersForTopic exMembers "t0").length +
          (if i < [0, 1, 2].length % (consumersForTopic exMembers "t0").length
           then 1 else 0) ∧
      ((assignedTo exCluster exMembers
          ((sortedConsumers (consumersForTopic exMembers "t0")).get ⟨i, hi⟩) "t0").length =
        [0, 1, 2].length / (consumersForTopic exMembers "t0").length + 1 ↔
          i < [0, 1, 2].length % (consumersForTopic exMembers "t0").length) :=
  C2_balance_invariant exCluster exMembers "t0" [0, 1, 2]
    (by decide) (by decide) (by decide) (by decide) (by decide)

/-- Witness for C3: the same member set supplied in two different orders
yields the same entry for each member. -/
theorem C3_order_independence_witness :
    (assign exCluster exMembers).lookup "C0" =
        (assign exCluster exMembersRev).lookup "C0" ∧
    (assign exCluster exMembers).lookup "C1" =
        (assign exCluster exMembersRev).lookup "C1" :=
  ⟨C3_order_independence exCluster exCluster exMembers exMembersRev (by decide)
      (fun _ h => h) (fun _ ps₁ h => ⟨ps₁, h, List.Perm.refl ps₁⟩) "C0",
    C3_order_independence exCluster exCluster exMembers exMembersRev (by decide)
      (fun _ h => h) (fun _ ps₁ h => ⟨ps₁, h, List.Perm.refl ps₁⟩) "C1"⟩

/-- Witness for C8 (amended): the single entry of a concrete assignment
carries empty user data. -/
theorem C8_user_data_empty_witness :
    (("m0", (⟨0, [("t", [0])], []⟩ : ConsumerProtocolMemberAssignment)) ∈
      assign cexCluster cexMembers) ∧
    (("m0", (⟨0, [("t", [0])], []⟩ : ConsumerProtocolMemberAssignment)) :
      String × ConsumerProtocolMemberAssignment).2.user_data = [] :=
  ⟨by decide, C8_user_data_empty cexCluster cexMembers _ (by decide)⟩

/-- Witness for C9 at a concrete cluster missing metadata for topic "gone". -/
theorem C9_missing_metadata_skipped_witness :
    (∀ mid, assignedTo skipCluster skipMembers mid "gone" = []) ∧
    (∀ mid a, (assign skipCluster skipMembers).lookup mid = some a →
      ∀ l, ("gone", l) ∉ a.assignment) ∧
    (∀ (cluster' : ClusterMetadata), (∀ t, t ≠ "gone" → cluster' t = skipCluster t) →
      ∀ mid a a', (assign skipCluster skipMembers).lookup mid = some a →
        (assign cluster' skipMembers).lookup mid = some a' →
        ∀ t l, t ≠ "gone" → ((t, l) ∈ a.assignment ↔ (t, l) ∈ a'.assignment)) :=
  C9_missing_metadata_skipped skipCluster skipMembers "gone" (by decide)

/-- Witness for C10 at a concrete input with an idle member. -/
theorem C10_total_output_witness :
    ((assign cexCluster lonerMembers).map Prod.fst = lonerMembers.map Prod.fst) ∧
    (∀ p ∈ assign cexCluster lonerMembers,
      List.Sorted (fun a b : String × List Nat => strLe a.1 b.1 = true)
        p.2.assignment) ∧
    (∀ mid, mid ∈ lonerMembers.map Prod.fst →
      (assign cexCluster lonerMembers).lookup mid =
        some ⟨version, memberAssignmentPairs cexCluster lonerMembers mid, []⟩) ∧
    (∀ mid, mid ∈ lonerMembers.map Prod.fst →
      (∀ t, mid ∉ consumersForTopic lonerMembers t) →
      (assign cexCluster lonerMembers).lookup mid = some ⟨version, [], []⟩) ∧
    (∀ mid t ps, cexCluster t = some ps → mid ∈ consumersForTopic lonerMembers t →
      ∃ a l, (assign cexCluster lonerMembers).lookup mid = some a ∧
        (t, l) ∈ a.assignment) :=
  C10_total_output cexCluster lonerMembers

end RangePartitionAssignor

/-! ### Byte-level encoding lemmas for the legacy codec -/

namespace LegacyRecords

theorem natBytesBE_length (k n : Nat) : (natBytesBE k n).length = k := by
  induction k generalizing n with
  | zero => rfl
  | succ k ih => simp [natBytesBE, ih]

theorem int32BE_length (i : Int) : (int32BE i).length = 4 := natBytesBE_length 4 _

theorem int64BE_length (i : Int) : (int64BE i).length = 8 := natBytesBE_length 8 _

theorem uint32BE_length (n : Nat) : (uint32BE n).length = 4 := natBytesBE_length 4 _

theorem natFromBytesBE_natBytesBE (k n : Nat) :
    natFromBytesBE (natBytesBE k n) = n % 256 ^ k := by
  induction k generalizing n with
  | zero => simp [natBytesBE, natFromBytesBE, Nat.mod_one]
  | succ k ih =>
    show ((natBytesBE k (n / 256) ++ [n % 256]).foldl (fun acc b => acc * 256 + b) 0) = _
    rw [List.foldl_append]
    have hh : (natBytesBE k (n / 256)).foldl (fun acc b => acc * 256 + b) 0 =
        n / 256 % 256 ^ k := ih (n / 256)
    rw [hh]
    show (n / 256 % 256 ^ k) * 256 + n % 256 = n % 256 ^ (k + 1)
    have h1 : n % (256 ^ k * 256) = n % 256 + 256 * (n / 256 % 256 ^ k) := by
      rw [Nat.mul_comm (256 ^ k) 256, Nat.mod_mul]
    rw [pow_succ, h1]
    omega

theorem natFromBytesBE_inv {k n : Nat} (h : n < 256 ^ k) :
    natFromBytesBE (natBytesBE k n) = n := by
  rw [natFromBytesBE_natBytesBE, Nat.mod_eq_of_lt h]

theorem readUint32_uint32BE {n : Nat} (h : n < 2 ^ 32) :
    readUint32 (uint32BE n) = n := by
  unfold readUint32 uint32BE
  exact natFromBytesBE_inv (by norm_num; omega)

theorem readInt64_int64BE {i : Int} (h1 : -2 ^ 63 ≤ i) (h2 : i < 2 ^ 63) :
    readInt64 (int64BE i) = i := by
  unfold readInt64 int64BE
  have hb : (i % 2 ^ 64).toNat < 256 ^ 8 := by
    have : (256 : Nat) ^ 8 = 2 ^ 64 := by norm_num
    rw [this]
    omega
  rw [natFromBytesBE_inv hb]
  by_cases hneg : 0 ≤ i
  · have hm : i % 2 ^ 64 = i := by omega
    rw [hm, if_pos (by omega)]
    omega
  · have hm : i % 2 ^ 64 = i + 2 ^ 64 := by omega
    rw [hm, if_neg (by omega)]
    omega

theorem readInt32_int32BE {i : Int} (h1 : -2 ^ 31 ≤ i) (h2 : i < 2 ^ 31) :
    readInt32 (int32BE i) = i := by
  unfold readInt32 int32BE
  have hb : (i % 2 ^ 32).toNat < 256 ^ 4 := by
    have : (256 : Nat) ^ 4 = 2 ^ 32 := by norm_num
    rw [this]
    omega
  rw [natFromBytesBE_inv hb]
  by_cases hneg : 0 ≤ i
  · have hm : i % 2 ^ 32 = i := by omega
    rw [hm, if_pos (by omega)]
    omega
  · have hm : i % 2 ^ 32 = i + 2 ^ 32 := by omega
    rw [hm, if_neg (by omega)]
    omega

theorem xorBits_lt (k a b : Nat) : xorBits k a b < 2 ^ k := by
  induction k generalizing a b with
  | zero => simp [xorBits]
  | succ k ih =>
    have hr := ih (a / 2) (b / 2)
    unfold xorBits
    rw [pow_succ]
    by_cases h : (a % 2 + b % 2) % 2 = 1
    · rw [if_pos h]
      omega
    · rw [if_neg h]
      omega

theorem crc32_lt (data : List Nat) : crc32 data < 2 ^ 32 := by
  unfold crc32 xor32
  exact xorBits_lt 32 _ _

theorem takeN_exact {l₁ l₂ : List Nat} {n : Nat} (h : l₁.length = n) :
    takeN n (l₁ ++ l₂) = some (l₁, l₂) := by
  unfold takeN
  rw [if_pos (by rw [List.length_append]; omega)]
  rw [List.take_left' h, List.drop_left' h]

theorem takeN_one {a : Nat} {l : List Nat} : takeN 1 (a :: l) = some ([a], l) :=
  @takeN_exact [a] l 1 rfl

theorem readSized_roundtrip (key : Option (List Nat)) (rest : List Nat) :
    readSized (lenField key) (optBytes key ++ rest) = some (key, rest) := by
  cases key with
  | none =>
    show readSized (-1) ([] ++ rest) = some (none, rest)
    unfold readSized
    rw [if_pos rfl, List.nil_append]
  | some kb =>
    show readSized (kb.length : Int) (kb ++ rest) = some (some kb, rest)
    unfold readSized
    rw [if_neg (by omega), if_neg (by omega)]
    have ht : ((kb.length : Int)).toNat = kb.length := by omega
    rw [ht, takeN_exact rfl]
    rfl

theorem messageBody_length (magic : Nat) (ts : Int) (key value : Option (List Nat)) :
    (messageBody magic ts key value).length =
      (if magic = 0 then 10 else 18) + (optBytes key).length + (optBytes value).length := by
  unfold messageBody
  by_cases h : magic = 0 <;>
    simp [h, int32BE_length, int64BE_length] <;> omega

end LegacyRecords

namespace LegacyRecords

theorem readSized_exact (v : Option (List Nat)) :
    readSized (lenField v) (optBytes v) = some (v, []) := by
  have h := readSized_roundtrip v []
  rwa [List.append_nil] at h

theorem lenField_bounds {v : Option (List Nat)} (h : (optBytes v).length < 2 ^ 24) :
    -2 ^ 31 ≤ lenField v ∧ lenField v < 2 ^ 31 := by
  cases v with
  | none =>
    constructor <;> norm_num [lenField]
  | some kb =>
    simp only [lenField, optBytes] at *
    constructor <;> omega

theorem parseRecord_entry (magic : Nat) (hm : magic = 0 ∨ magic = 1)
    (offset ts : Int) (key value : Option (List Nat)) (rest : List Nat)
    (ho1 : -2 ^ 63 ≤ offset) (ho2 : offset < 2 ^ 63)
    (ht1 : -2 ^ 63 ≤ ts) (ht2 : ts < 2 ^ 63)
    (hk : (optBytes key).length < 2 ^ 24) (hv : (optBytes value).length < 2 ^ 24) :
    parseRecord magic
      (int64BE offset ++
        (int32BE ((4 + (messageBody magic ts key value).length : Nat) : Int) ++
          (uint32BE (crc32 (messageBody magic ts key value)) ++
            (messageBody magic ts key value ++ rest)))) =
      some (⟨offset, if magic = 0 then none else some ts,
        if magic = 0 then none else some 0, key, value,
        crc32 (messageBody magic ts key value)⟩, rest) := by
  have hbl := messageBody_length magic ts key value
  have hble : (messageBody magic ts key value).length ≤
      18 + (optBytes key).length + (optBytes value).length := by
    rw [hbl]
    split <;> omega
  have hL1 : (-2 ^ 31 : Int) ≤ ((4 + (messageBody magic ts key value).length : Nat) : Int) := by
    omega
  have hL2 : ((4 + (messageBody magic ts key value).length : Nat) : Int) < 2 ^ 31 := by
    omega
  have hlenk := lenField_bounds hk
  have hlenv := lenField_bounds hv
  have hmsg : (uint32BE (crc32 (messageBody magic ts key value)) ++
      (messageBody magic ts key value ++ rest)) =
      ((uint32BE (crc32 (messageBody magic ts key value)) ++
        messageBody magic ts key value) ++ rest) := by
    rw [List.append_assoc]
  have hmsglen : (uint32BE (crc32 (messageBody magic ts key value)) ++
      messageBody magic ts key value).length =
      4 + (messageBody magic ts key value).length := by
    rw [List.length_append, uint32BE_length]
  rcases hm with rfl | rfl
  · -- magic = 0
    have hbody : messageBody 0 ts key value =
        0 :: 0 :: (int32BE (lenField key) ++ (optBytes key ++
          (int32BE (lenField value) ++ optBytes value))) := by
      simp [messageBody, List.append_assoc]
    unfold parseRecord
    simp only [takeN_exact (int64BE_length offset), Option.bind_eq_bind, Option.some_bind]
    simp only [takeN_exact (int32BE_length _), Option.some_bind]
    rw [readInt32_int32BE hL1 hL2]
    rw [if_neg (by omega)]
    rw [Int.toNat_natCast, hmsg]
    simp only [takeN_exact hmsglen, Option.bind_eq_bind, Option.some_bind]
    simp only [takeN_exact (uint32BE_length _), Option.some_bind]
    rw [hbody]
    simp only [takeN_one, Option.some_bind]
    simp only [takeN_exact (int32BE_length (lenField key)), Option.some_bind,
      Option.bind_eq_bind]
    rw [readInt32_int32BE hlenk.1 hlenk.2]
    simp only [readSized_roundtrip key, Option.some_bind]
    simp only [takeN_exact (int32BE_length (lenField value)), Option.some_bind]
    rw [readInt32_int32BE hlenv.1 hlenv.2]
    simp only [readSized_exact value, Option.some_bind]
    rw [readInt64_int64BE ho1 ho2, readUint32_uint32BE (crc32_lt _)]
    simp
  · -- magic = 1
    have hbody : messageBody 1 ts key value =
        1 :: 0 :: (int64BE ts ++ (int32BE (lenField key) ++ (optBytes key ++
          (int32BE (lenField value) ++ optBytes value)))) := by
      simp [messageBody, List.append_assoc]
    unfold parseRecord
    simp only [takeN_exact (int64BE_length offset), Option.bind_eq_bind, Option.some_bind]
    simp only [takeN_exact (int32BE_length _), Option.some_bind]
    rw [readInt32_int32BE hL1 hL2]
    rw [if_neg (by omega)]
    rw [Int.toNat_natCast, hmsg]
    simp only [takeN_exact hmsglen, Option.bind_eq_bind, Option.some_bind]
    simp only [takeN_exact (uint32BE_length _), Option.some_bind]
    rw [hbody]
    simp only [takeN_one, Option.some_bind]
    simp only [takeN_exact (int64BE_length ts), Option.some_bind]
    simp only [takeN_exact (int32BE_length (lenField key)), Option.some_bind,
      Option.bind_eq_bind]
    rw [readInt32_int32BE hlenk.1 hlenk.2]
    simp only [readSized_roundtrip key, Option.some_bind]
    simp only [takeN_exact (int32BE_length (lenField value)), Option.some_bind]
    rw [readInt32_int32BE hlenv.1 hlenv.2]
    simp only [readSized_exact value, Option.some_bind]
    rw [readInt64_int64BE ho1 ho2, readInt64_int64BE ht1 ht2,
      readUint32_uint32BE (crc32_lt _)]
    norm_num

end LegacyRecords

namespace LegacyRecords

theorem parseRecords_nil (magic fuel : Nat) : parseRecords magic fuel [] = some [] := by
  cases fuel <;> rfl

theorem records_single {magic : Nat} {buf : List Nat} {r : LegacyRecord}
    (hne : buf ≠ []) (h : parseRecord magic buf = some (r, [])) :
    records buf magic = some [r] := by
  unfold records
  cases buf with
  | nil => exact absurd rfl hne
  | cons b bs =>
    show parseRecords magic (b :: bs).length (b :: bs) = some [r]
    rw [List.length_cons]
    unfold parseRecords
    rw [h]
    show (parseRecords magic bs.length []).map (fun rs => r :: rs) = some [r]
    rw [parseRecords_nil]
    rfl

theorem append_empty (b : LegacyRecordBatchBuilder) (hb : b.buffer = [])
    (offset : Int) (timestamp : Option Int) (key value : Option (List Nat)) :
    b.append offset timestamp key value =
      (some ⟨offset,
          crc32 (messageBody b.magic (b.resolveTimestamp timestamp) key value),
          b.size_in_bytes offset timestamp key value,
          b.resolveTimestamp timestamp⟩,
        { b with buffer :=
            int64BE offset ++
              int32BE ((4 + (messageBody b.magic (b.resolveTimestamp timestamp)
                key value).length : Nat) : Int) ++
              uint32BE (crc32 (messageBody b.magic (b.resolveTimestamp timestamp)
                key value)) ++
              messageBody b.magic (b.resolveTimestamp timestamp) key value }) := by
  unfold LegacyRecordBatchBuilder.append
  rw [if_neg (by rw [hb]; simp)]
  rw [hb]
  rfl

end LegacyRecords

namespace LegacyRecords

theorem resolveTimestamp_eq (magic batch_size : Nat) (now : Int)
    (buffer : List Nat) (timestamp : Option Int) :
    (⟨magic, 0, batch_size, now, buffer⟩ :
        LegacyRecordBatchBuilder).resolveTimestamp timestamp =
      if magic = 0 then -1 else timestamp.getD now := by
  unfold LegacyRecordBatchBuilder.resolveTimestamp
  cases timestamp <;> rfl

/-- Claim C4 (spec-modelled, uncompressed codec): a record appended to a
Builder and read back through a Reader over the built buffer has identical
offset, key and value; for format v1 the timestamp is the appended one; the
stored record-level checksum equals the checksum recomputed over the decoded
record's bytes, and equals the crc of the append metadata. -/
theorem C4_round_trip (magic : Nat) (hm : magic = 0 ∨ magic = 1)
    (batch_size : Nat) (now offset : Int) (timestamp : Option Int)
    (key value : Option (List Nat))
    (ho1 : -2 ^ 63 ≤ offset) (ho2 : offset < 2 ^ 63)
    (hts : ∀ t, timestamp = some t → -2 ^ 63 ≤ t ∧ t < 2 ^ 63)
    (hnow1 : -2 ^ 63 ≤ now) (hnow2 : now < 2 ^ 63)
    (hk : (optBytes key).length < 2 ^ 24) (hv : (optBytes value).length < 2 ^ 24) :
    ∃ meta r,
      ((⟨magic, 0, batch_size, now, []⟩ :
          LegacyRecordBatchBuilder).append offset timestamp key value).1 = some meta ∧
      records (((⟨magic, 0, batch_size, now, []⟩ :
          LegacyRecordBatchBuilder).append offset timestamp key value).2.build)
        magic = some [r] ∧
      r.offset = offset ∧
      r.key = key ∧
      r.value = value ∧
      (magic = 1 → ∀ t, timestamp = some t → r.timestamp = some t) ∧
      (magic = 0 → r.timestamp = none) ∧
      r.checksum = meta.crc ∧
      r.checksum = crc32 (messageBody magic (r.timestamp.getD (-1)) r.key r.value) := by
  have hres := resolveTimestamp_eq magic batch_size now [] timestamp
  have htsb : -2 ^ 63 ≤ (if magic = 0 then -1 else timestamp.getD now) ∧
      (if magic = 0 then -1 else timestamp.getD now) < 2 ^ 63 := by
    rcases hm with h0 | h1
    · rw [if_pos h0]
      norm_num
    · rw [if_neg (by omega)]
      cases htt : timestamp with
      | none => exact ⟨hnow1, hnow2⟩
      | some t => exact hts t htt
  have happ := append_empty ⟨magic, 0, batch_size, now, []⟩ rfl offset timestamp key value
  rw [hres] at happ
  dsimp only at happ
  have hentry : parseRecord magic
      (int64BE offset ++
        int32BE ((4 + (messageBody magic (if magic = 0 then -1 else timestamp.getD now)
          key value).length : Nat) : Int) ++
        uint32BE (crc32 (messageBody magic (if magic = 0 then -1 else timestamp.getD now)
          key value)) ++
        messageBody magic (if magic = 0 then -1 else timestamp.getD now) key value) =
      some (⟨offset,
        if magic = 0 then none else some (if magic = 0 then -1 else timestamp.getD now),
        if magic = 0 then none else some 0, key, value,
        crc32 (messageBody magic (if magic = 0 then -1 else timestamp.getD now)
          key value)⟩, []) := by
    have hsh : (int64BE offset ++
        int32BE ((4 + (messageBody magic (if magic = 0 then -1 else timestamp.getD now)
          key value).length : Nat) : Int) ++
        uint32BE (crc32 (messageBody magic (if magic = 0 then -1 else timestamp.getD now)
          key value)) ++
        messageBody magic (if magic = 0 then -1 else timestamp.getD now) key value) =
        (int64BE offset ++
          (int32BE ((4 + (messageBody magic (if magic = 0 then -1 else timestamp.getD now)
            key value).length : Nat) : Int) ++
            (uint32BE (crc32 (messageBody magic (if magic = 0 then -1 else timestamp.getD now)
              key value)) ++
              (messageBody magic (if magic = 0 then -1 else timestamp.getD now)
                key value ++ [])))) := by
      simp [List.append_assoc]
    rw [hsh]
    exact parseRecord_entry magic hm offset _ key value [] ho1 ho2 htsb.1 htsb.2 hk hv
  have hne : (int64BE offset ++
      int32BE ((4 + (messageBody magic (if magic = 0 then -1 else timestamp.getD now)
        key value).length : Nat) : Int) ++
      uint32BE (crc32 (messageBody magic (if magic = 0 then -1 else timestamp.getD now)
        key value)) ++
      messageBody magic (if magic = 0 then -1 else timestamp.getD now) key value) ≠ [] := by
    apply List.ne_nil_of_length_pos
    rw [List.length_append, List.length_append, List.length_append, int64BE_length]
    omega
  refine ⟨⟨offset,
      crc32 (messageBody magic (if magic = 0 then -1 else timestamp.getD now) key value),
      (⟨magic, 0, batch_size, now, []⟩ :
        LegacyRecordBatchBuilder).size_in_bytes offset timestamp key value,
      if magic = 0 then -1 else timestamp.getD now⟩,
    ⟨offset,
      if magic = 0 then none else some (if magic = 0 then -1 else timestamp.getD now),
      if magic = 0 then none else some 0, key, value,
      crc32 (messageBody magic (if magic = 0 then -1 else timestamp.getD now) key value)⟩,
    ?_, ?_, rfl, rfl, rfl, ?_, ?_, rfl, ?_⟩
  · rw [happ]
  · rw [happ]
    exact records_single hne hentry
  · intro h1 t htt
    rw [if_neg (by omega), if_neg (by omega), htt]
    rfl
  · intro h0
    rw [if_pos h0]
  · show crc32 (messageBody magic (if magic = 0 then -1 else timestamp.getD now) key value) =
      crc32 (messageBody magic
        (((if magic = 0 then none
            else some (if magic = 0 then -1 else timestamp.getD now)) :
          Option Int).getD (-1)) key value)
    rcases hm with h0 | h1
    · rw [if_pos h0, if_pos h0]
      rfl
    · rw [if_neg (by omega), if_neg (by omega)]
      rfl

end LegacyRecords

namespace LegacyRecords

theorem buildWithCodec_zero (compress : List Nat → List Nat)
    (b : LegacyRecordBatchBuilder) (h : b.compression_type = 0) :
    buildWithCodec compress b = b.build := by
  unfold buildWithCodec LegacyRecordBatchBuilder.build
  rw [if_pos h]

theorem append_compression_type (b : LegacyRecordBatchBuilder) (offset : Int)
    (timestamp : Option Int) (key value : Option (List Nat)) :
    ((b.append offset timestamp key value).2).compression_type =
      b.compression_type := by
  unfold LegacyRecordBatchBuilder.append
  dsimp only
  split <;> rfl

/-- Claim C6 (amended, spec-modelled): the first record appended to an empty
batch is accepted whatever the format version, codec and maximum batch
size — even when the encoded record exceeds the maximum; under the
uncompressed codec the built buffer (equivalently, the codec-generic build
with any compress function) is longer than the record's value. -/
theorem C6_first_record_always_accepted (b : LegacyRecordBatchBuilder)
    (hb : b.buffer = []) (offset : Int) (timestamp : Option Int)
    (key value : Option (List Nat)) :
    ((b.append offset timestamp key value).1.isSome = true) ∧
    (b.compression_type = 0 →
      (b.append offset timestamp key value).2.build.length >
        (optBytes value).length) ∧
    (b.compression_type = 0 → ∀ compress,
      (buildWithCodec compress (b.append offset timestamp key value).2).length >
        (optBytes value).length) := by
  have h2 : (b.append offset timestamp key value).2.build.length >
      (optBytes value).length := by
    rw [append_empty b hb offset timestamp key value]
    show (int64BE offset ++
        int32BE ((4 + (messageBody b.magic (b.resolveTimestamp timestamp)
          key value).length : Nat) : Int) ++
        uint32BE (crc32 (messageBody b.magic (b.resolveTimestamp timestamp) key value)) ++
        messageBody b.magic (b.resolveTimestamp timestamp) key value).length >
      (optBytes value).length
    rw [List.length_append, List.length_append, List.length_append, int64BE_length,
      int32BE_length, uint32BE_length, messageBody_length]
    split <;> omega
  have h1 : (b.append offset timestamp key value).1.isSome = true := by
    rw [append_empty b hb offset timestamp key value]
    rfl
  refine ⟨h1, fun _ => h2, fun hc0 compress => ?_⟩
  have hcomp : ((b.append offset timestamp key value).2).compression_type = 0 := by
    rw [append_compression_type]
    exact hc0
  rw [buildWithCodec_zero compress ((b.append offset timestamp key value).2) hcomp]
  exact h2

set_option maxRecDepth 100000 in
set_option maxHeartbeats 4000000 in
/-- Claim C6, counterexample: under a compressing codec (spec section 4.2,
with the external stream compressor modelled by the run-length stand-in)
the first record — whose encoded size exceeds the 64-byte maximum — is
still accepted, but the built batch is shorter than the record's 500-byte
value, refuting the any-codec buffer-exceeds-value clause. -/
theorem C6_counterexample :
    (((⟨0, 1, 64, 0, []⟩ : LegacyRecordBatchBuilder).append 0 none none
        (some (List.replicate 500 77))).1.isSome = true) ∧
    ((buildWithCodec rleCompress
        (((⟨0, 1, 64, 0, []⟩ : LegacyRecordBatchBuilder).append 0 none none
          (some (List.replicate 500 77))).2)).length <
      (optBytes (some (List.replicate 500 77))).length) := by
  decide

/-- Claim C7 (spec-modelled): an append to a non-empty builder whose
acceptance would exceed the maximum batch size returns absent — not an
error — and leaves the builder's buffer untouched, so a subsequent build()
returns the batch of the already-accepted records. -/
theorem C7_reject_keeps_state (b : LegacyRecordBatchBuilder) (offset : Int)
    (timestamp : Option Int) (key value : Option (List Nat))
    (hne : b.buffer ≠ [])
    (hover : b.buffer.length + b.size_in_bytes offset timestamp key value >
      b.batch_size) :
    b.append offset timestamp key value = (none, b) ∧
    (b.append offset timestamp key value).2.build = b.build := by
  have h : b.append offset timestamp key value = (none, b) := by
    unfold LegacyRecordBatchBuilder.append
    rw [if_pos ⟨hne, hover⟩]
  exact ⟨h, by rw [h]⟩

set_option maxRecDepth 100000 in
/-- Claim C5 (amended): appending offset 0, timestamp 9999999, key "test",
value "Super" to an uncompressed Builder yields the record checksum
2199891077 (that is, -2095076219 read as a signed 32-bit value, hex
0x831FAC85) for format v1 and 278251978 for v0, both in the append metadata
and when the built buffer is read back. -/
theorem C5_fixed_checksums :
    ((((⟨1, 0, 1048576, 0, []⟩ : LegacyRecordBatchBuilder).append 0 (some 9999999)
        (some [116, 101, 115, 116]) (some [83, 117, 112, 101, 114])).1.map
      LegacyRecordMetadata.crc) = some 2199891077) ∧
    ((records (((⟨1, 0, 1048576, 0, []⟩ : LegacyRecordBatchBuilder).append 0
          (some 9999999) (some [116, 101, 115, 116])
          (some [83, 117, 112, 101, 114])).2.build) 1).map
      (List.map LegacyRecord.checksum) = some [2199891077]) ∧
    ((((⟨0, 0, 1048576, 0, []⟩ : LegacyRecordBatchBuilder).append 0 (some 9999999)
        (some [116, 101, 115, 116]) (some [83, 117, 112, 101, 114])).1.map
      LegacyRecordMetadata.crc) = some 278251978) ∧
    ((records (((⟨0, 0, 1048576, 0, []⟩ : LegacyRecordBatchBuilder).append 0
          (some 9999999) (some [116, 101, 115, 116])
          (some [83, 117, 112, 101, 114])).2.build) 0).map
      (List.map LegacyRecord.checksum) = some [278251978]) := by
  decide

set_option maxRecDepth 100000 in
/-- Claim C5, counterexample: the fixture's v1 record checksum is 2199891077
(hex 0x831FAC85), which is not the hex constant 0xD3FFC645 = 3556755013
named by the claim. -/
theorem C5_checksum_counterexample :
    ((((⟨1, 0, 1048576, 0, []⟩ : LegacyRecordBatchBuilder).append 0 (some 9999999)
        (some [116, 101, 115, 116]) (some [83, 117, 112, 101, 114])).1.map
      LegacyRecordMetadata.crc) = some 2199891077) ∧
    (2199891077 : Nat) ≠ 0xD3FFC645 := by
  decide

end LegacyRecords

namespace LegacyRecords

/-- Witness for C4: a concrete v1 record round-trips through build and read. -/
theorem C4_round_trip_witness :
    ∃ meta r,
      ((⟨1, 0, 1024, 5, []⟩ :
          LegacyRecordBatchBuilder).append 3 (some 77) (some [1, 2]) none).1 =
        some meta ∧
      records (((⟨1, 0, 1024, 5, []⟩ :
          LegacyRecordBatchBuilder).append 3 (some 77) (some [1, 2]) none).2.build)
        1 = some [r] ∧
      r.offset = 3 ∧
      r.key = some [1, 2] ∧
      r.value = none ∧
      ((1 : Nat) = 1 → ∀ t, (some (77 : Int)) = some t → r.timestamp = some t) ∧
      ((1 : Nat) = 0 → r.timestamp = none) ∧
      r.checksum = meta.crc ∧
      r.checksum = crc32 (messageBody 1 (r.timestamp.getD (-1)) r.key r.value) :=
  C4_round_trip 1 (Or.inr rfl) 1024 5 3 (some 77) (some [1, 2]) none
    (by decide) (by decide)
    (by
      intro t ht
      injection ht with h
      constructor <;> omega)
    (by decide) (by decide) (by decide) (by decide)

/-- Witness for C6: a builder with maximum size 8 accepts an oversized first
record, and the built buffer is longer than the 20-byte value. -/
theorem C6_first_record_always_accepted_witness :
    (((⟨0, 0, 8, 0, []⟩ : LegacyRecordBatchBuilder).append 0 none none
        (some (List.replicate 20 77))).1.isSome = true) ∧
    ((⟨0, 0, 8, 0, []⟩ : LegacyRecordBatchBuilder).compression_type = 0 →
      ((⟨0, 0, 8, 0, []⟩ : LegacyRecordBatchBuilder).append 0 none none
          (some (List.replicate 20 77))).2.build.length >
        (optBytes (some (List.replicate 20 77))).length) ∧
    ((⟨0, 0, 8, 0, []⟩ : LegacyRecordBatchBuilder).compression_type = 0 →
      ∀ compress,
        (buildWithCodec compress
          ((⟨0, 0, 8, 0, []⟩ : LegacyRecordBatchBuilder).append 0 none none
            (some (List.replicate 20 77))).2).length >
          (optBytes (some (List.replicate 20 77))).length) :=
  C6_first_record_always_accepted ⟨0, 0, 8, 0, []⟩ rfl 0 none none
    (some (List.replicate 20 77))

/-- Witness for C7: a rejected oversized append to a non-empty builder
returns absent and leaves the builder unchanged. -/
theorem C7_reject_keeps_state_witness :
    ((⟨0, 0, 10, 0, [1, 2, 3]⟩ : LegacyRecordBatchBuilder).append 1 none none
        (some (List.replicate 10 5)) = (none, ⟨0, 0, 10, 0, [1, 2, 3]⟩)) ∧
    (((⟨0, 0, 10, 0, [1, 2, 3]⟩ : LegacyRecordBatchBuilder).append 1 none none
        (some (List.replicate 10 5))).2.build =
      (⟨0, 0, 10, 0, [1, 2, 3]⟩ : LegacyRecordBatchBuilder).build) :=
  C7_reject_keeps_state ⟨0, 0, 10, 0, [1, 2, 3]⟩ 1 none none
    (some (List.replicate 10 5)) (by decide) (by decide)

end LegacyRecords
